import Mathlib

/-!
# gincache: a verification development

A shallow embedding of `cache.go` (package `gincache`): the request fingerprint
(`generateKey`), the expiring store behind `memoryCache`, the capture wrapper
(`cachedWriter`) and the decision protocol (`CacheMiddleware`), with the library
functions the code calls (`encoding/json`, `encoding/base64`, `crypto/sha1`,
`unicode/utf8`, `net/http.Header`, `go-cache`, gin's response writer) modelled
next to it, from their documented behaviour.

Conventions.
* A Go `string` or `[]byte` is the list of its bytes, each byte a natural number
  below 256 (`Bytes`, `IsBytes`).
* A `[]byte` that may be `nil` is an `Option Bytes`: `none` is the nil slice and
  `some []` is the empty, non-nil slice (the middleware tests `mc.Data == nil`).
* A Go map that the code iterates (`http.Header`) is an association list; a map
  that it only looks up (the store) is a function from keys to optional items.
* Time is the clock reading in nanoseconds, an `Int`; one run of the middleware
  reads the clock at one instant `now`.
* A handler is a tree of calls on the writer and the context it is given
  (`Prog`); a statement about every handler is a statement about every tree.
* The live writer keeps the record of the calls it received (`calls`), which
  is how a statement says what was sent to the client.
* Locks (`sync.RWMutex`) guard against interleavings, which are not modelled.
-/

namespace GinCache

/-! ## Bytes -/

/-- A Go `string` or non-nil `[]byte`: the sequence of its bytes. -/
abbrev Bytes := List Nat

/-- Every element is a byte (below 256). -/
def IsBytes (s : Bytes) : Prop := ∀ b ∈ s, b < 256

instance (s : Bytes) : Decidable (IsBytes s) := by
  unfold IsBytes; exact inferInstance

/-! ## unicode/utf8 -/

/-- The constant `utf8.RuneError` (U+FFFD). -/
def RuneError : Nat := 0xFFFD

/-- Continuation-byte test (`locb <= b && b <= hicb`). -/
def isCont (b : Nat) : Bool := 0x80 ≤ b && b ≤ 0xBF

/-- The function `utf8.DecodeRune`: the first rune of `p` and its width in bytes;
`(RuneError, 0)` on empty input and `(RuneError, 1)` on an invalid or truncated
encoding. The accept ranges are those of Go's `first` and `acceptRanges` tables. -/
def decodeRune : Bytes → Nat × Nat
  | [] => (RuneError, 0)
  | p0 :: rest =>
    if p0 < 0x80 then (p0, 1)
    else if p0 < 0xC2 then (RuneError, 1)
    else if p0 < 0xE0 then
      match rest with
      | b1 :: _ =>
        if isCont b1 then ((p0 % 0x20) * 0x40 + b1 % 0x40, 2) else (RuneError, 1)
      | _ => (RuneError, 1)
    else if p0 < 0xF0 then
      match rest with
      | b1 :: b2 :: _ =>
        if (if p0 = 0xE0 then 0xA0 else 0x80) ≤ b1 ∧ b1 ≤ (if p0 = 0xED then 0x9F else 0xBF) then
          if isCont b2 then
            ((p0 % 0x10) * 0x1000 + (b1 % 0x40) * 0x40 + b2 % 0x40, 3)
          else (RuneError, 1)
        else (RuneError, 1)
      | _ => (RuneError, 1)
    else if p0 < 0xF5 then
      match rest with
      | b1 :: b2 :: b3 :: _ =>
        if (if p0 = 0xF0 then 0x90 else 0x80) ≤ b1 ∧ b1 ≤ (if p0 = 0xF4 then 0x8F else 0xBF) then
          if isCont b2 then
            if isCont b3 then
              ((p0 % 0x08) * 0x40000 + (b1 % 0x40) * 0x1000 + (b2 % 0x40) * 0x40 + b3 % 0x40, 4)
            else (RuneError, 1)
          else (RuneError, 1)
        else (RuneError, 1)
      | _ => (RuneError, 1)
    else (RuneError, 1)

/-- The function `utf8.EncodeRune` (`utf8.AppendRune`): the UTF-8 bytes of rune `r`;
surrogates and values above `utf8.MaxRune` are written as U+FFFD. -/
def encodeRune (r : Nat) : Bytes :=
  if r < 0x80 then [r]
  else if r < 0x800 then [0xC0 + r / 0x40, 0x80 + r % 0x40]
  else if 0x10FFFF < r ∨ (0xD800 ≤ r ∧ r ≤ 0xDFFF) then [0xEF, 0xBF, 0xBD]
  else if r < 0x10000 then [0xE0 + r / 0x1000, 0x80 + r / 0x40 % 0x40, 0x80 + r % 0x40]
  else [0xF0 + r / 0x40000, 0x80 + r / 0x1000 % 0x40, 0x80 + r / 0x40 % 0x40, 0x80 + r % 0x40]

/-- The test `c == utf8.RuneError && size == 1` that Go code makes on the result
of `DecodeRune` to recognise an invalid byte. -/
def isInvalid (d : Nat × Nat) : Bool := d.1 == RuneError && d.2 == 1

/-- The loop of `utf8.Valid`, bounded by `fuel` steps (each step consumes at least one byte). -/
def utf8ValidAux : Nat → Bytes → Bool
  | 0, s => s.isEmpty
  | _ + 1, [] => true
  | fuel + 1, b :: rest =>
    if isInvalid (decodeRune (b :: rest)) then false
    else utf8ValidAux fuel ((b :: rest).drop (decodeRune (b :: rest)).2)

/-- The function `utf8.Valid`: the bytes are entirely valid UTF-8-encoded runes. -/
def utf8Valid (s : Bytes) : Bool := utf8ValidAux s.length s

/-- Coercion to valid UTF-8 as `encoding/json` performs it: every invalid byte
becomes the encoding of U+FFFD; bounded by `fuel` steps. -/
def toValidUTF8Aux : Nat → Bytes → Bytes
  | 0, _ => []
  | _ + 1, [] => []
  | fuel + 1, b :: rest =>
    if isInvalid (decodeRune (b :: rest)) then
      [0xEF, 0xBF, 0xBD] ++ toValidUTF8Aux fuel rest
    else
      (b :: rest).take (decodeRune (b :: rest)).2
        ++ toValidUTF8Aux fuel ((b :: rest).drop (decodeRune (b :: rest)).2)

/-- The string a JSON round trip turns `s` into: `s` itself when it is valid
UTF-8, otherwise `s` with each invalid byte replaced by U+FFFD. -/
def toValidUTF8 (s : Bytes) : Bytes := toValidUTF8Aux s.length s

/-! ## encoding/base64 -/

/-- The character of a 6-bit value in an alphabet whose last two characters are
`c62` and `c63`: `A`-`Z`, `a`-`z`, `0`-`9`, `c62`, `c63`. -/
def b64Char (c62 c63 : Nat) (v : Nat) : Nat :=
  if v < 26 then 65 + v
  else if v < 52 then 97 + (v - 26)
  else if v < 62 then 48 + (v - 52)
  else if v = 62 then c62
  else c63

/-- The 6-bit value of an alphabet character, if it is one. -/
def b64Val (c62 c63 : Nat) (c : Nat) : Option Nat :=
  if 65 ≤ c ∧ c ≤ 90 then some (c - 65)
  else if 97 ≤ c ∧ c ≤ 122 then some (c - 97 + 26)
  else if 48 ≤ c ∧ c ≤ 57 then some (c - 48 + 52)
  else if c = c62 then some 62
  else if c = c63 then some 63
  else none

/-- The method `(*Encoding).EncodeToString` for a padded encoding (`=`): three
bytes become four characters, a final group of one or two bytes is padded. -/
def b64Encode (c62 c63 : Nat) : Bytes → Bytes
  | [] => []
  | [a] => [b64Char c62 c63 (a / 4), b64Char c62 c63 (a % 4 * 16), 61, 61]
  | [a, b] =>
    [b64Char c62 c63 (a / 4), b64Char c62 c63 (a % 4 * 16 + b / 16),
     b64Char c62 c63 (b % 16 * 4), 61]
  | a :: b :: c :: rest =>
    b64Char c62 c63 (a / 4) :: b64Char c62 c63 (a % 4 * 16 + b / 16)
      :: b64Char c62 c63 (b % 16 * 4 + c / 64) :: b64Char c62 c63 (c % 64)
      :: b64Encode c62 c63 rest

/-- Decoding of the quanta of a padded encoding, after line breaks were dropped:
full quanta of four characters, then at most one quantum closed by `=` or `==`,
after which the input must end. Unused trailing bits are not checked (the
encodings are not strict). -/
def b64DecodeQuanta (c62 c63 : Nat) : Bytes → Option Bytes
  | [] => some []
  | [c0, c1, 61, 61] =>
    match b64Val c62 c63 c0, b64Val c62 c63 c1 with
    | some v0, some v1 => some [v0 * 4 + v1 / 16]
    | _, _ => none
  | [c0, c1, c2, 61] =>
    match b64Val c62 c63 c0, b64Val c62 c63 c1, b64Val c62 c63 c2 with
    | some v0, some v1, some v2 => some [v0 * 4 + v1 / 16, v1 % 16 * 16 + v2 / 4]
    | _, _, _ => none
  | c0 :: c1 :: c2 :: c3 :: rest =>
    match b64Val c62 c63 c0, b64Val c62 c63 c1, b64Val c62 c63 c2, b64Val c62 c63 c3 with
    | some v0, some v1, some v2, some v3 =>
      (b64DecodeQuanta c62 c63 rest).map
        (fun t => (v0 * 4 + v1 / 16) :: (v1 % 16 * 16 + v2 / 4) :: (v2 % 4 * 64 + v3) :: t)
    | _, _, _, _ => none
  | _ => none

/-- The method `(*Encoding).DecodeString` for a padded encoding: `\r` and `\n`
are ignored wherever they stand, the rest is decoded quantum by quantum. -/
def b64Decode (c62 c63 : Nat) (s : Bytes) : Option Bytes :=
  b64DecodeQuanta c62 c63 (s.filter (fun c => c != 13 && c != 10))

/-- The encoder `base64.StdEncoding.EncodeToString` (alphabet ending in `+/`). -/
def stdEncode : Bytes → Bytes := b64Encode 43 47

/-- The decoder `base64.StdEncoding.DecodeString`. -/
def stdDecode : Bytes → Option Bytes := b64Decode 43 47

/-- The encoder `base64.URLEncoding.EncodeToString` (alphabet ending in `-_`). -/
def urlEncode : Bytes → Bytes := b64Encode 45 95

/-! ## crypto/sha1 -/

/-- Rotation of a 32-bit word to the left by `n` bits (`bits.RotateLeft32`). -/
def rotl32 (x n : Nat) : Nat := (x <<< n ||| x >>> (32 - n)) % 4294967296

/-- The four bytes of a 32-bit word, most significant first. -/
def be32 (x : Nat) : Bytes := [x / 16777216 % 256, x / 65536 % 256, x / 256 % 256, x % 256]

/-- The padded message of SHA-1: the message, the byte 0x80, zero bytes up to
56 modulo 64, and the length in bits as a 64-bit big-endian number. -/
def sha1Pad (msg : Bytes) : Bytes :=
  msg ++ 0x80 :: List.replicate ((119 - msg.length % 64) % 64) 0
    ++ be32 (8 * msg.length / 4294967296 % 4294967296) ++ be32 (8 * msg.length % 4294967296)

/-- The big-endian 32-bit words of a block of bytes. -/
def beWords : Bytes → List Nat
  | a :: b :: c :: d :: rest => (a * 16777216 + b * 65536 + c * 256 + d) :: beWords rest
  | _ => []

/-- The message schedule extended by `n` words: each new word is the rotation
by one bit of the exclusive or of the words 3, 8, 14 and 16 places back. The
list holds the words in reverse order. -/
def sha1Schedule : Nat → List Nat → List Nat
  | 0, w => w
  | n + 1, w =>
    sha1Schedule n
      (rotl32 (w.getD 2 0 ^^^ w.getD 7 0 ^^^ w.getD 13 0 ^^^ w.getD 15 0) 1 :: w)

/-- The function and the constant of round `i`. -/
def sha1Round (i b c d : Nat) : Nat × Nat :=
  if i < 20 then (b &&& c ||| (4294967295 - b) &&& d, 0x5A827999)
  else if i < 40 then (b ^^^ c ^^^ d, 0x6ED9EBA1)
  else if i < 60 then (b &&& c ||| b &&& d ||| c &&& d, 0x8F1BBCDC)
  else (b ^^^ c ^^^ d, 0xCA62C1D6)

/-- The rounds of one block from round `i` on, over the scheduled words that
are left. -/
def sha1Rounds : List Nat → Nat → Nat × Nat × Nat × Nat × Nat → Nat × Nat × Nat × Nat × Nat
  | [], _, s => s
  | wi :: ws, i, (a, b, c, d, e) =>
    sha1Rounds ws (i + 1)
      ((rotl32 a 5 + (sha1Round i b c d).1 + e + (sha1Round i b c d).2 + wi) % 4294967296,
        a, rotl32 b 30, c, d)

/-- One block of 64 bytes added to the state. -/
def sha1Block (h : Nat × Nat × Nat × Nat × Nat) (block : Bytes) : Nat × Nat × Nat × Nat × Nat :=
  let r := sha1Rounds (sha1Schedule 64 (beWords block).reverse).reverse 0 h
  ((h.1 + r.1) % 4294967296, (h.2.1 + r.2.1) % 4294967296, (h.2.2.1 + r.2.2.1) % 4294967296,
    (h.2.2.2.1 + r.2.2.2.1) % 4294967296, (h.2.2.2.2 + r.2.2.2.2) % 4294967296)

/-- The blocks of the padded message, at most `n` of them, added to the state. -/
def sha1Blocks : Nat → Nat × Nat × Nat × Nat × Nat → Bytes → Nat × Nat × Nat × Nat × Nat
  | 0, h, _ => h
  | _ + 1, h, [] => h
  | n + 1, h, b :: rest => sha1Blocks n (sha1Block h ((b :: rest).take 64)) ((b :: rest).drop 64)

/-- The function `sha1.Sum`: the SHA-1 digest of the data, 20 bytes. -/
def sha1.Sum (data : Bytes) : Bytes :=
  let h := sha1Blocks (data.length / 64 + 2)
    (0x67452301, 0xEFCDAB89, 0x98BADCFE, 0x10325476, 0xC3D2E1F0) (sha1Pad data)
  be32 h.1 ++ be32 h.2.1 ++ be32 h.2.2.1 ++ be32 h.2.2.2.1 ++ be32 h.2.2.2.2

/-! ## strconv -/

/-- Decimal digits of `n`, most significant first, prepended to `acc`; `fuel`
bounds the number of digits. -/
def formatNatAux : Nat → Nat → Bytes → Bytes
  | 0, _, acc => acc
  | fuel + 1, n, acc =>
    if n < 10 then (48 + n) :: acc
    else formatNatAux fuel (n / 10) ((48 + n % 10) :: acc)

/-- Decimal text of a natural number (`strconv.FormatUint(n, 10)`). -/
def formatNat (n : Nat) : Bytes := formatNatAux (n + 1) n []

/-- The function `strconv.AppendInt(i, 10)`, by which `encoding/json` writes an `int`. -/
def formatInt (i : Int) : Bytes :=
  if i < 0 then 45 :: formatNat i.natAbs else formatNat i.natAbs

/-- Decimal digit test. -/
def isDigit (c : Nat) : Bool := 48 ≤ c && c ≤ 57

/-- Value of a run of decimal digits, continuing from `acc`. -/
def digitsValue (acc : Nat) : Bytes → Nat
  | [] => acc
  | c :: rest => digitsValue (acc * 10 + (c - 48)) rest

/-- The function `strconv.ParseInt(s, 10, 64)` on a JSON number literal, as
`encoding/json` uses it for an `int` field: the literal must be an optional
minus sign followed by digits only, and the value must fit 64 bits. -/
def parseInt64 (lit : Bytes) : Option Int :=
  match lit with
  | 45 :: ds =>
    if ds ≠ [] ∧ ds.all isDigit ∧ digitsValue 0 ds ≤ 2 ^ 63
    then some (-(digitsValue 0 ds : Int)) else none
  | ds =>
    if ds ≠ [] ∧ ds.all isDigit ∧ digitsValue 0 ds < 2 ^ 63
    then some (digitsValue 0 ds : Int) else none

/-- The function `strconv.ParseUint(s, 10, 64)` followed by the overflow check
for `uint8`, as `encoding/json` uses them for an element of a `[]byte` written
as a JSON array. -/
def parseUint8 (lit : Bytes) : Option Nat :=
  if lit ≠ [] ∧ lit.all isDigit ∧ digitsValue 0 lit < 256
  then some (digitsValue 0 lit) else none

/-! ## encoding/json: writing -/

/-- The table `htmlSafeSet`: ASCII bytes that `json.Marshal` copies unescaped
(printable ASCII except the quote, the backslash, and `&`, `<`, `>`). -/
def htmlSafe (b : Nat) : Bool :=
  0x20 ≤ b && b < 0x80 && b != 0x22 && b != 0x26 && b != 0x3C && b != 0x3E && b != 0x5C

/-- One character of `"0123456789abcdef"`. -/
def hexChar (n : Nat) : Nat := if n < 10 then 48 + n else 87 + n

/-- The escape that `appendString` writes for an ASCII byte outside
`htmlSafeSet` (as of Go 1.22; earlier versions write the backspace and the form
feed as `u0008` and `u000c` escapes, which are read back as the same bytes). -/
def escapeByte (b : Nat) : Bytes :=
  if b = 0x5C ∨ b = 0x22 then [0x5C, b]
  else if b = 8 then [0x5C, 98]
  else if b = 12 then [0x5C, 102]
  else if b = 10 then [0x5C, 110]
  else if b = 13 then [0x5C, 114]
  else if b = 9 then [0x5C, 116]
  else [0x5C, 117, 48, 48, hexChar (b / 16), hexChar (b % 16)]

/-- The loop of `appendString` (with `escapeHTML`), bounded by `fuel` steps:
ASCII is copied or escaped, an invalid byte is written as the escape of U+FFFD,
U+2028 and U+2029 are escaped, any other rune is copied. -/
def appendStringAux : Nat → Bytes → Bytes
  | 0, _ => []
  | _ + 1, [] => []
  | fuel + 1, b :: rest =>
    if b < 0x80 then
      (if htmlSafe b then [b] else escapeByte b) ++ appendStringAux fuel rest
    else if isInvalid (decodeRune (b :: rest)) then
      [0x5C, 117, 102, 102, 102, 100] ++ appendStringAux fuel rest
    else if (decodeRune (b :: rest)).1 = 0x2028 ∨ (decodeRune (b :: rest)).1 = 0x2029 then
      [0x5C, 117, 50, 48, 50, hexChar ((decodeRune (b :: rest)).1 % 16)]
        ++ appendStringAux fuel ((b :: rest).drop (decodeRune (b :: rest)).2)
    else
      (b :: rest).take (decodeRune (b :: rest)).2
        ++ appendStringAux fuel ((b :: rest).drop (decodeRune (b :: rest)).2)

/-- The JSON text of a Go string as `json.Marshal` writes it (`appendString`). -/
def quoteString (s : Bytes) : Bytes := 0x22 :: (appendStringAux s.length s ++ [0x22])

/-- The JSON text of a `[]byte` (`encodeByteSlice`): `null` for nil, otherwise
the standard base64 text between quotes. -/
def encodeByteSlice : Option Bytes → Bytes
  | none => [110, 117, 108, 108]
  | some b => 0x22 :: (stdEncode b ++ [0x22])

/-- Elements of a JSON array of strings, separated by commas. -/
def encodeStringElems : List Bytes → Bytes
  | [] => []
  | [v] => quoteString v
  | v :: vs => quoteString v ++ 44 :: encodeStringElems vs

/-- The JSON text of a `[]string`. -/
def encodeStringSlice (vs : List Bytes) : Bytes := 91 :: (encodeStringElems vs ++ [93])

/-- Bytewise lexicographic order on strings (`strings.Compare(a, b) <= 0`). -/
def bytesLe : Bytes → Bytes → Bool
  | [], _ => true
  | _ :: _, [] => false
  | a :: as, b :: bs => if a < b then true else if a = b then bytesLe as bs else false

/-- Insertion of a map entry into a list of entries sorted by key. -/
def insertEntry (e : Bytes × List Bytes) : List (Bytes × List Bytes) → List (Bytes × List Bytes)
  | [] => [e]
  | x :: xs => if bytesLe e.1 x.1 then e :: x :: xs else x :: insertEntry e xs

/-- The entries of a map in the order `json.Marshal` writes them: sorted by key. -/
def sortEntries : List (Bytes × List Bytes) → List (Bytes × List Bytes)
  | [] => []
  | e :: es => insertEntry e (sortEntries es)

/-- Members of the JSON object of a `map[string][]string`, separated by commas. -/
def encodeMembers : List (Bytes × List Bytes) → Bytes
  | [] => []
  | [e] => quoteString e.1 ++ 58 :: encodeStringSlice e.2
  | e :: es => quoteString e.1 ++ 58 :: (encodeStringSlice e.2 ++ 44 :: encodeMembers es)

/-- The JSON text of a `map[string][]string`: an object whose members are the
entries sorted by key. -/
def encodeMap (h : List (Bytes × List Bytes)) : Bytes :=
  123 :: (encodeMembers (sortEntries h) ++ [125])

/-! ## encoding/json: reading -/

/-- A JSON value as the scanner of `encoding/json` delimits it. A number keeps
its literal text and a string its unquoted bytes; the typed decoding below
interprets them. -/
inductive JValue where
  | null
  | bool (b : Bool)
  | number (lit : Bytes)
  | string (s : Bytes)
  | array (elems : List JValue)
  | object (members : List (Bytes × JValue))

/-- The function `isSpace` of the scanner: space, tab, carriage return, line feed. -/
def isSpace (c : Nat) : Bool := c == 32 || c == 9 || c == 13 || c == 10

/-- Drops leading JSON white space. -/
def skipSpace : Bytes → Bytes
  | [] => []
  | c :: rest => if isSpace c then skipSpace rest else c :: rest

/-- Value of a hexadecimal digit, if it is one. -/
def hexVal (c : Nat) : Option Nat :=
  if 48 ≤ c ∧ c ≤ 57 then some (c - 48)
  else if 97 ≤ c ∧ c ≤ 102 then some (c - 97 + 10)
  else if 65 ≤ c ∧ c ≤ 70 then some (c - 65 + 10)
  else none

/-- The four hexadecimal digits that follow a backslash and `u` (`getu4`):
their value and the input after them. -/
def getu4 : Bytes → Option (Nat × Bytes)
  | a :: b :: c :: d :: rest =>
    match hexVal a, hexVal b, hexVal c, hexVal d with
    | some x, some y, some z, some w => some (x * 4096 + y * 256 + z * 16 + w, rest)
    | _, _, _, _ => none
  | _ => none

/-- The function `utf16.DecodeRune`: the rune of a surrogate pair, or U+FFFD. -/
def utf16DecodeRune (r1 r2 : Nat) : Nat :=
  if 0xD800 ≤ r1 ∧ r1 < 0xDC00 ∧ 0xDC00 ≤ r2 ∧ r2 < 0xE000
  then (r1 - 0xD800) * 0x400 + (r2 - 0xDC00) + 0x10000 else RuneError

/-- Puts `p` in front of the bytes of a reader's result. -/
def prepend (p : Bytes) (r : Option (Bytes × Bytes)) : Option (Bytes × Bytes) :=
  r.map (fun t => (p ++ t.1, t.2))

/-- A JSON string literal after its opening quote: the scanner's check of the
literal together with `unquoteBytes`. Returns the unquoted bytes and the input
after the closing quote. Escapes are decoded, a surrogate pair of two escapes
becomes one rune, a lone surrogate becomes U+FFFD, control characters are
refused, and every rune that is not ASCII is decoded and encoded again, which
coerces invalid UTF-8 to U+FFFD. Bounded by `fuel` steps (each consumes a byte). -/
def readString : Nat → Bytes → Option (Bytes × Bytes)
  | 0, _ => none
  | _ + 1, [] => none
  | fuel + 1, c :: rest =>
    if c = 0x22 then some ([], rest)
    else if c = 0x5C then
      match rest with
      | [] => none
      | e :: rest2 =>
        if e = 0x22 ∨ e = 0x5C ∨ e = 0x2F then prepend [e] (readString fuel rest2)
        else if e = 98 then prepend [8] (readString fuel rest2)
        else if e = 102 then prepend [12] (readString fuel rest2)
        else if e = 110 then prepend [10] (readString fuel rest2)
        else if e = 114 then prepend [13] (readString fuel rest2)
        else if e = 116 then prepend [9] (readString fuel rest2)
        else if e = 117 then
          match getu4 rest2 with
          | none => none
          | some (rr, rest3) =>
            if 0xD800 ≤ rr ∧ rr < 0xE000 then
              match rest3 with
              | 0x5C :: 117 :: rest4 =>
                match getu4 rest4 with
                | some (rr1, rest5) =>
                  if utf16DecodeRune rr rr1 ≠ RuneError then
                    prepend (encodeRune (utf16DecodeRune rr rr1)) (readString fuel rest5)
                  else prepend (encodeRune RuneError) (readString fuel rest3)
                | none => none
              | _ => prepend (encodeRune RuneError) (readString fuel rest3)
            else prepend (encodeRune rr) (readString fuel rest3)
        else none
    else if c < 0x20 then none
    else if c < 0x80 then prepend [c] (readString fuel rest)
    else
      prepend (encodeRune (decodeRune (c :: rest)).1)
        (readString fuel ((c :: rest).drop (decodeRune (c :: rest)).2))

/-- Integer part of a JSON number: `0`, or a digit `1`-`9` followed by digits. -/
def readInt : Bytes → Option (Bytes × Bytes)
  | 48 :: r => some ([48], r)
  | c :: r =>
    if 49 ≤ c ∧ c ≤ 57 then some (c :: r.takeWhile isDigit, r.dropWhile isDigit) else none
  | [] => none

/-- Optional fraction of a JSON number: a point followed by one digit or more. -/
def readFrac : Bytes → Option (Bytes × Bytes)
  | 46 :: r =>
    if r.takeWhile isDigit = [] then none
    else some (46 :: r.takeWhile isDigit, r.dropWhile isDigit)
  | s => some ([], s)

/-- One digit or more, for the exponent; `lead` is the text already read. -/
def readExpDigits (lead : Bytes) (r : Bytes) : Option (Bytes × Bytes) :=
  if r.takeWhile isDigit = [] then none
  else some (lead ++ r.takeWhile isDigit, r.dropWhile isDigit)

/-- Optional exponent of a JSON number: `e` or `E`, an optional sign, digits. -/
def readExp : Bytes → Option (Bytes × Bytes)
  | [] => some ([], [])
  | c :: r =>
    if c = 101 ∨ c = 69 then
      match r with
      | sign :: r2 =>
        if sign = 43 ∨ sign = 45 then readExpDigits [c, sign] r2 else readExpDigits [c] r
      | [] => none
    else some ([], c :: r)

/-- A JSON number literal without sign: integer part, optional fraction,
optional exponent. -/
def readUnsigned (s : Bytes) : Option (Bytes × Bytes) :=
  match readInt s with
  | none => none
  | some (i, s2) =>
    match readFrac s2 with
    | none => none
    | some (f, s3) =>
      match readExp s3 with
      | none => none
      | some (e, s4) => some (i ++ f ++ e, s4)

/-- A JSON number literal, with its optional minus sign: its text and the input
after it. -/
def readNumber : Bytes → Option (Bytes × Bytes)
  | 45 :: r => prepend [45] (readUnsigned r)
  | s => readUnsigned s

/-- A JSON value that opens no array or object: a string, a number or one of
the literals `true`, `false`, `null`. The input starts at the value. -/
def readScalar : Bytes → Option (JValue × Bytes)
  | 116 :: 114 :: 117 :: 101 :: r => some (.bool true, r)
  | 102 :: 97 :: 108 :: 115 :: 101 :: r => some (.bool false, r)
  | 110 :: 117 :: 108 :: 108 :: r => some (.null, r)
  | c :: r =>
    if c = 0x22 then (readString r.length r).map (fun p => (.string p.1, p.2))
    else if c = 45 ∨ isDigit c then (readNumber (c :: r)).map (fun p => (.number p.1, p.2))
    else none
  | [] => none

/-- Elements of a non-empty JSON array after `[`, read with `pv`, up to and
including `]`; at most `n` elements. -/
def readElems (pv : Bytes → Option (JValue × Bytes)) :
    Nat → Bytes → Option (List JValue × Bytes)
  | 0, _ => none
  | n + 1, s =>
    match pv s with
    | none => none
    | some (v, r) =>
      match skipSpace r with
      | 44 :: r2 => (readElems pv n r2).map (fun p => (v :: p.1, p.2))
      | 93 :: r2 => some ([v], r2)
      | _ => none

/-- Members of a non-empty JSON object after `{`, values read with `pv`, up to
and including `}`; at most `n` members. -/
def readMembers (pv : Bytes → Option (JValue × Bytes)) :
    Nat → Bytes → Option (List (Bytes × JValue) × Bytes)
  | 0, _ => none
  | n + 1, s =>
    match skipSpace s with
    | 0x22 :: r =>
      match readString r.length r with
      | none => none
      | some (k, r1) =>
        match skipSpace r1 with
        | 58 :: r2 =>
          match pv r2 with
          | none => none
          | some (v, r3) =>
            match skipSpace r3 with
            | 44 :: r4 => (readMembers pv n r4).map (fun p => ((k, v) :: p.1, p.2))
            | 125 :: r4 => some ([(k, v)], r4)
            | _ => none
        | _ => none
    | _ => none

/-- One JSON value, after optional white space, and the input after it. `depth`
is the number of arrays and objects that may still be opened inside one another
(the scanner refuses nesting deeper than `maxNestingDepth`). -/
def readValue : Nat → Bytes → Option (JValue × Bytes)
  | 0, s => readScalar (skipSpace s)
  | depth + 1, s =>
    match skipSpace s with
    | [] => none
    | c :: r =>
      if c = 123 then
        match skipSpace r with
        | 125 :: r2 => some (.object [], r2)
        | _ => (readMembers (readValue depth) r.length r).map (fun p => (.object p.1, p.2))
      else if c = 91 then
        match skipSpace r with
        | 93 :: r2 => some (.array [], r2)
        | _ => (readElems (readValue depth) r.length r).map (fun p => (.array p.1, p.2))
      else readScalar (c :: r)

/-- The scanner's constant `maxNestingDepth`. -/
def maxNestingDepth : Nat := 10000

/-- The syntax check that `json.Unmarshal` makes first (`checkValid`), with the
value it delimits: the whole input is one JSON value between optional white space. -/
def readJSON (data : Bytes) : Option JValue :=
  match readValue maxNestingDepth data with
  | some (v, rest) => if skipSpace rest = [] then some v else none
  | none => none

/-! ## net/http.Header -/

/-- The type `http.Header`, a `map[string][]string`: an association list from
header names to their values. A well-formed map has no name twice
(`NodupKeys`); the order of the list stands for the order in which `range`
happens to visit the entries. A nil map or nil `[]string` is not told apart from
an empty one (no code path here compares them with nil). -/
abbrev Header := List (Bytes × List Bytes)

/-- Map lookup `h[k]`. -/
def mapGet : Header → Bytes → Option (List Bytes)
  | [], _ => none
  | e :: es, k => if e.1 = k then some e.2 else mapGet es k

/-- Map assignment `h[k] = vs`. -/
def mapAssign : Header → Bytes → List Bytes → Header
  | [], k, vs => [(k, vs)]
  | e :: es, k, vs => if e.1 = k then (k, vs) :: es else e :: mapAssign es k vs

/-- No key occurs twice. -/
def NodupKeys (h : Header) : Prop := (h.map Prod.fst).Nodup

/-- The table `isTokenTable` of `net/textproto`: bytes allowed in a header name. -/
def validHeaderFieldByte (c : Nat) : Bool :=
  (48 ≤ c && c ≤ 57) || (65 ≤ c && c ≤ 90) || (97 ≤ c && c ≤ 122)
    || [33, 35, 36, 37, 38, 39, 42, 43, 45, 46, 94, 95, 96, 124, 126].contains c

/-- The rewriting loop of `canonicalMIMEHeaderKey`: upper case for the first
letter and for a letter after a hyphen, lower case for the others. -/
def canonLoop : Bool → Bytes → Bytes
  | _, [] => []
  | upper, c :: rest =>
    if upper && (97 ≤ c && c ≤ 122) then (c - 32) :: canonLoop (c - 32 == 45) rest
    else if !upper && (65 ≤ c && c ≤ 90) then (c + 32) :: canonLoop (c + 32 == 45) rest
    else c :: canonLoop (c == 45) rest

/-- The function `textproto.CanonicalMIMEHeaderKey`: a name made of token bytes
only is put in canonical case, any other name is returned unchanged. -/
def CanonicalMIMEHeaderKey (s : Bytes) : Bytes :=
  if s.all validHeaderFieldByte then canonLoop true s else s

/-- The method `http.Header.Set`: the canonical name is given the single value `value`. -/
def headerSet (h : Header) (key value : Bytes) : Header :=
  mapAssign h (CanonicalMIMEHeaderKey key) [value]

/-- The method `http.Header.Add`: `value` is appended to the values of the canonical name. -/
def headerAdd (h : Header) (key value : Bytes) : Header :=
  mapAssign h (CanonicalMIMEHeaderKey key)
    ((mapGet h (CanonicalMIMEHeaderKey key)).getD [] ++ [value])

/-! ## The snapshot and its codec -/

/-- The struct `cacheResponse`: a captured response. `Data` is a `[]byte`, nil
when `none`. -/
structure cacheResponse where
  Status : Int
  Header : Header
  Data : Option Bytes
  deriving DecidableEq, Repr

/-- The call `json.Marshal(val)` for a `cacheResponse`: the object with the
members `Status`, `Header`, `Data` in the order of the fields. For this type
`Marshal` has no failing case. -/
def marshalResponse (val : cacheResponse) : Bytes :=
  -- the texts are: opening brace, "Status": / ,"Header": / ,"Data": / closing brace
  [123, 34, 83, 116, 97, 116, 117, 115, 34, 58] ++ formatInt val.Status
    ++ [44, 34, 72, 101, 97, 100, 101, 114, 34, 58] ++ encodeMap val.Header
    ++ [44, 34, 68, 97, 116, 97, 34, 58] ++ encodeByteSlice val.Data ++ [125]

/-- The call `json.Marshal(data)` for a non-nil `[]byte`: its base64 text as a
JSON string. -/
def marshalBytes (b : Bytes) : Bytes := encodeByteSlice (some b)

/-- The function `foldName` as far as it matters for ASCII field names: ASCII
letters in upper case, and the two letters outside ASCII whose simple case
folding is an ASCII letter (U+017F to `S`, U+212A to `K`); other bytes are
kept, so a name holding them equals no folded field name. -/
def foldName : Bytes → Bytes
  | [] => []
  | 0xC5 :: 0xBF :: rest => 83 :: foldName rest
  | 0xE2 :: 0x84 :: 0xAA :: rest => 75 :: foldName rest
  | c :: rest => (if 97 ≤ c ∧ c ≤ 122 then c - 32 else c) :: foldName rest

/-- The fields of `cacheResponse`. -/
inductive Field where
  | Status
  | Header
  | Data
  deriving DecidableEq, Repr

/-- The field a JSON object key selects: the field of that exact name, else the
field whose name equals the key under case folding, else none (the member is
skipped). -/
def findField (key : Bytes) : Option Field :=
  -- the names are: Status, Header, Data, then STATUS, HEADER, DATA
  if key = [83, 116, 97, 116, 117, 115] then some .Status
  else if key = [72, 101, 97, 100, 101, 114] then some .Header
  else if key = [68, 97, 116, 97] then some .Data
  else if foldName key = [83, 84, 65, 84, 85, 83] then some .Status
  else if foldName key = [72, 69, 65, 68, 69, 82] then some .Header
  else if foldName key = [68, 65, 84, 65] then some .Data
  else none

/-- Elements of a JSON array decoded into a `[]string`: a string gives its
bytes, `null` leaves the zero value, anything else is a type error. -/
def decodeStringElems : List JValue → Option (List Bytes)
  | [] => some []
  | .string s :: rest => (decodeStringElems rest).map (fun t => s :: t)
  | .null :: rest => (decodeStringElems rest).map (fun t => [] :: t)
  | _ => none

/-- A JSON value decoded into a `[]string`: an array, or `null` for nil. -/
def decodeStringSlice : JValue → Option (List Bytes)
  | .array es => decodeStringElems es
  | .null => some []
  | _ => none

/-- Members of a JSON object decoded into the map `h`, in order: each key is
assigned its decoded value, a later duplicate replacing an earlier one. -/
def decodeHeaderMembers : Header → List (Bytes × JValue) → Option Header
  | h, [] => some h
  | h, (k, v) :: rest =>
    match decodeStringSlice v with
    | some vs => decodeHeaderMembers (mapAssign h k vs) rest
    | none => none

/-- Elements of a JSON array decoded into a `[]byte`: numbers from 0 to 255,
`null` leaving zero. -/
def decodeByteElems : List JValue → Option Bytes
  | [] => some []
  | .number lit :: rest =>
    match parseUint8 lit with
    | some b => (decodeByteElems rest).map (fun t => b :: t)
    | none => none
  | .null :: rest => (decodeByteElems rest).map (fun t => 0 :: t)
  | _ => none

/-- A JSON value decoded into the field `Status` of `r`. -/
def decodeStatus (r : cacheResponse) : JValue → Except String cacheResponse
  | .number lit =>
    match parseInt64 lit with
    | some i => .ok { r with Status := i }
    | none => .error "json: cannot unmarshal number into Go struct field cacheResponse.Status of type int"
  | .null => .ok r
  | _ => .error "json: cannot unmarshal value into Go struct field cacheResponse.Status of type int"

/-- A JSON value decoded into the field `Header` of `r`: an object is decoded
into the map the field holds, `null` makes the field nil. -/
def decodeHeader (r : cacheResponse) : JValue → Except String cacheResponse
  | .object ms =>
    match decodeHeaderMembers r.Header ms with
    | some h => .ok { r with Header := h }
    | none => .error "json: cannot unmarshal value into Go struct field cacheResponse.Header"
  | .null => .ok { r with Header := [] }
  | _ => .error "json: cannot unmarshal value into Go struct field cacheResponse.Header of type http.Header"

/-- A JSON value decoded into the field `Data` of `r`: a string is taken as
standard base64 text, an array as a list of bytes, `null` makes the field nil. -/
def decodeData (r : cacheResponse) : JValue → Except String cacheResponse
  | .string s =>
    match stdDecode s with
    | some b => .ok { r with Data := some b }
    | none => .error "illegal base64 data"
  | .array es =>
    match decodeByteElems es with
    | some b => .ok { r with Data := some b }
    | none => .error "json: cannot unmarshal value into Go struct field cacheResponse.Data of type uint8"
  | .null => .ok { r with Data := none }
  | _ => .error "json: cannot unmarshal value into Go struct field cacheResponse.Data of type []uint8"

/-- One member of the JSON object decoded into the struct `r`; a member whose
key selects no field is skipped. A type error makes `Unmarshal` return an error
(it is saved and reported after the rest was decoded; only its presence is
modelled). -/
def decodeMember (r : cacheResponse) (k : Bytes) (v : JValue) : Except String cacheResponse :=
  match findField k with
  | none => .ok r
  | some .Status => decodeStatus r v
  | some .Header => decodeHeader r v
  | some .Data => decodeData r v

/-- The members of a JSON object decoded into the struct `r`, in order. -/
def decodeMembers : cacheResponse → List (Bytes × JValue) → Except String cacheResponse
  | r, [] => .ok r
  | r, (k, v) :: rest =>
    match decodeMember r k v with
    | .ok r1 => decodeMembers r1 rest
    | .error e => .error e

/-- The call `json.Unmarshal(r, &result)` with `result` a zero `cacheResponse`:
the syntax check, then the typed decoding. `null` leaves the struct as it is; a
value that is neither `null` nor an object is a type error. -/
def unmarshalResponse (data : Bytes) : Except String cacheResponse :=
  match readJSON data with
  | none => .error "invalid character or unexpected end of JSON input"
  | some (.object ms) => decodeMembers ⟨0, [], none⟩ ms
  | some .null => .ok ⟨0, [], none⟩
  | some _ => .error "json: cannot unmarshal value into Go value of type gincache.cacheResponse"

/-! ## go-cache: the expiring store -/

/-- A value held by the store (`interface{}`): a `[]byte`, or a value of any
other type. -/
inductive CacheObject where
  | bytes (b : Bytes)
  | other
  deriving DecidableEq, Repr

/-- The struct `cache.Item`: the object and its deadline in nanoseconds; a
deadline of 0 or less means that the item does not expire. -/
structure Item where
  Object : CacheObject
  Expiration : Int
  deriving DecidableEq, Repr

/-- The struct `cache.Cache`: the default time to live and the map of items. The
janitor that deletes expired items in the background is left out: `Get` never
returns an expired item, deleted or not. -/
structure Cache where
  defaultExpiration : Int
  items : Bytes → Option Item

/-- The constructor `cache.New(defaultExpiration, cleanupInterval)`. -/
def cacheNew (defaultExpiration _cleanupInterval : Int) : Cache :=
  ⟨defaultExpiration, fun _ => none⟩

/-- The method `Cache.Set(k, x, d)` at clock reading `now`: a duration of 0
(`DefaultExpiration`) stands for the default; a positive duration sets the
deadline `now + d`, any other one sets none. The item replaces any item of
that key. -/
def Cache.Set (c : Cache) (now : Int) (k : Bytes) (x : CacheObject) (d : Int) : Cache :=
  let d1 := if d = 0 then c.defaultExpiration else d
  let e := if d1 > 0 then now + d1 else 0
  { c with items := fun j => if j = k then some ⟨x, e⟩ else c.items j }

/-- The method `Cache.Get(k)` at clock reading `now`: the object of the item of
that key, unless there is none or its deadline has passed. -/
def Cache.Get (c : Cache) (now : Int) (k : Bytes) : Option CacheObject :=
  match c.items k with
  | none => none
  | some item =>
    if item.Expiration > 0 ∧ now > item.Expiration then none else some item.Object

/-- The method `Cache.Delete(k)`. -/
def Cache.Delete (c : Cache) (k : Bytes) : Cache :=
  { c with items := fun j => if j = k then none else c.items j }

/-! ## gin: the live response writer -/

/-- A call received by the live writer: the record of what reached the client
side. A body write records its data, whether it failed on the connection, and
the status in force when it was made. -/
inductive WriterCall where
  | WriteHeader (code : Int)
  | Write (data : Option Bytes) (failed : Bool) (status : Int)
  | WriteString (data : Bytes) (failed : Bool) (status : Int)
  deriving DecidableEq, Repr

/-- The live writer of gin (`responseWriter` behind `gin.ResponseWriter`): the
status (200 until set), the header map, the size written (-1 before the first
write), the calls received so far (oldest first), and for each coming body
write whether the connection fails it (none left: the write succeeds). -/
structure responseWriter where
  status : Int
  header : Header
  size : Int
  calls : List WriterCall
  faults : List Bool
  deriving DecidableEq, Repr

/-- A writer as gin hands it to the first handler of a request. -/
def freshWriter (faults : List Bool) : responseWriter := ⟨200, [], -1, [], faults⟩

/-- The method `responseWriter.WriteHeader`: a positive code becomes the status. -/
def responseWriter.WriteHeader (w : responseWriter) (code : Int) : responseWriter :=
  { w with status := if code > 0 then code else w.status,
           calls := w.calls ++ [.WriteHeader code] }

/-- The method `responseWriter.Status`. -/
def responseWriter.Status (w : responseWriter) : Int := w.status

/-- The method `responseWriter.Written`. -/
def responseWriter.Written (w : responseWriter) : Bool := w.size != -1

/-- The method `responseWriter.Header`: the header map of the response. -/
def responseWriter.Header (w : responseWriter) : Header := w.header

/-- The result `(n, err)` of a body write on the live writer and the writer
after it: the header is sent if it was not (`WriteHeaderNow`), the connection
takes the bytes or fails, and the size grows by the bytes taken. -/
def liveWrite (w : responseWriter) (len : Nat) (call : Bool → Int → WriterCall) :
    Except String Nat × responseWriter :=
  let failed := w.faults.headD false
  let w1 := { w with size := (if w.size = -1 then 0 else w.size) + (if failed then 0 else len),
                     calls := w.calls ++ [call failed w.status],
                     faults := w.faults.tail }
  (if failed then .error "write: broken pipe" else .ok len, w1)

/-- The method `responseWriter.Write`. -/
def responseWriter.Write (w : responseWriter) (data : Option Bytes) :
    Except String Nat × responseWriter :=
  liveWrite w (data.getD []).length (.Write data)

/-- The method `responseWriter.WriteString`. -/
def responseWriter.WriteString (w : responseWriter) (data : Bytes) :
    Except String Nat × responseWriter :=
  liveWrite w data.length (.WriteString data)

/-- The bytes of the body writes that succeeded, in order: what the client received. -/
def delivered : List WriterCall → Bytes
  | [] => []
  | .Write data false _ :: rest => data.getD [] ++ delivered rest
  | .WriteString data false _ :: rest => data ++ delivered rest
  | _ :: rest => delivered rest

/-- The body writes among the calls (`Write` and `WriteString`). -/
def bodyWrites (calls : List WriterCall) : List WriterCall :=
  calls.filter (fun c => match c with | .WriteHeader _ => false | _ => true)

/-! ## cache.go -/

/-- The struct `memCache` (its lock left out). -/
structure memCache where
  cache : Cache

/-- The package variable `memoryCache` as `init` sets it up:
`cache.New(5*time.Minute, 5*time.Minute)`. Every function below that reads or
writes the package variable takes and returns its current value. -/
def memoryCacheInit : memCache := ⟨cacheNew (5 * 60 * 1000000000) (5 * 60 * 1000000000)⟩

/-- The struct `cachedWriter`: the embedded live writer, and the fields
`status`, `written`, `expire`, `key`. -/
structure cachedWriter where
  ResponseWriter : responseWriter
  status : Int
  written : Bool
  expire : Int
  key : Bytes
  deriving DecidableEq, Repr

/-- The function `newCachedWriter`. -/
def newCachedWriter (expire : Int) (writer : responseWriter) (key : Bytes) : cachedWriter :=
  ⟨writer, 0, false, expire, key⟩

/-- The method `cachedWriter.WriteHeader`. -/
def cachedWriter.WriteHeader (w : cachedWriter) (code : Int) : cachedWriter :=
  { w with status := code, written := true,
           ResponseWriter := w.ResponseWriter.WriteHeader code }

/-- The method `cachedWriter.Status`. -/
def cachedWriter.Status (w : cachedWriter) : Int := w.ResponseWriter.Status

/-- The method `cachedWriter.Written`. -/
def cachedWriter.Written (w : cachedWriter) : Bool := w.ResponseWriter.Written

/-- The method `Header`, promoted from the embedded live writer. -/
def cachedWriter.Header (w : cachedWriter) : Header := w.ResponseWriter.Header

/-- The method `memCache.deleteCache`. -/
def deleteCache (memoryCache : memCache) (key : Bytes) : memCache :=
  ⟨memoryCache.cache.Delete key⟩

/-- The method `memCache.setCache` for `data` a `[]byte` (what its one caller
passes): the data is marshalled and the result stored. `Marshal` of a `[]byte`
has no failing case. -/
def setCache (memoryCache : memCache) (now : Int) (key : Bytes) (data : Bytes) (d : Int) :
    memCache :=
  let b := marshalBytes data
  ⟨memoryCache.cache.Set now key (.bytes b) d⟩

/-- The method `memCache.getCache` at clock reading `now`. -/
def getCache (mc : memCache) (now : Int) (key : Bytes) : Except String cacheResponse :=
  match mc.cache.Get now key with
  | none => .error "gin-cache: invalid cache key"
  | some c =>
    match c with
    | .bytes r => unmarshalResponse r
    | .other => .error "validator cache: failed to cast cache to bytes"

/-- The method `cachedWriter.Write` at clock reading `now`: the result, the
writer and the package variable `memoryCache` after the call. The branch for a
failing `json.Marshal` has no counterpart: marshalling a `cacheResponse` does
not fail. -/
def cachedWriter.Write (w : cachedWriter) (memoryCache : memCache) (now : Int)
    (data : Option Bytes) : Except String Nat × cachedWriter × memCache :=
  let res := w.ResponseWriter.Write data
  let w1 := { w with ResponseWriter := res.2 }
  match res.1 with
  | .error _ => (.error "fail to cache write string", w1, memoryCache)
  | .ok ret =>
    if w1.Status ≠ 200 then (.error "Write: invalid cache status", w1, memoryCache)
    else
      let val : cacheResponse := ⟨w1.Status, w1.Header, data⟩
      let b := marshalResponse val
      (.ok ret, w1, ⟨memoryCache.cache.Set now w1.key (.bytes b) w1.expire⟩)

/-- The method `cachedWriter.WriteString` at clock reading `now`; the snapshot
is marshalled here and handed to `setCache`, which marshals what it is given. -/
def cachedWriter.WriteString (w : cachedWriter) (memoryCache : memCache) (now : Int)
    (data : Bytes) : Except String Nat × cachedWriter × memCache :=
  let res := w.ResponseWriter.WriteString data
  let w1 := { w with ResponseWriter := res.2 }
  match res.1 with
  | .error _ => (.error "fail to cache write string", w1, memoryCache)
  | .ok ret =>
    if w1.Status ≠ 200 then (.error "WriteString: invalid cache status", w1, memoryCache)
    else
      let val : cacheResponse := ⟨w1.Status, w1.Header, some data⟩
      let b := marshalResponse val
      (.ok ret, w1, setCache memoryCache now w1.key b w1.expire)

/-- A request body (`io.ReadCloser`): the bytes it still yields, and whether
reading them ends with an error instead of the end of the stream. -/
structure Body where
  data : Bytes
  failing : Bool
  deriving DecidableEq, Repr

/-- The function `ioutil.ReadAll`: the bytes read, and whether an error ended the reading. -/
def ReadAll (b : Body) : Bytes × Bool := (b.data, b.failing)

/-- The part of `http.Request` the code uses: the text of the URL
(`URL.String()`) and the body, nil when `none`. -/
structure Request where
  URL : Bytes
  Body : Option Body
  deriving DecidableEq, Repr

/-- The part of `gin.Context` the code uses: the request, the live writer, and
whether the request is marked as aborted. -/
structure Context where
  Request : Request
  Writer : responseWriter
  aborted : Bool
  deriving DecidableEq, Repr

/-- The function `generateKey`: the key, and the context with the body put
back. The digest is the parameter `sha1Sum`, so that a statement can be made
for every digest or for a collision-free one; the code uses `sha1.Sum`. -/
def generateKey (sha1Sum : Bytes → Bytes) (c : Context) : Bytes × Context :=
  let url := c.Request.URL
  match c.Request.Body with
  | none =>
    (urlEncode (sha1Sum (url ++ [])), c)
  | some body =>
    let b := (ReadAll body).1
    let c1 := { c with Request := { c.Request with Body := some ⟨b, false⟩ } }
    (urlEncode (sha1Sum (url ++ b)), c1)

/-- What a handler does with the context it is given: a tree of calls on
`c.Writer` (the capture wrapper) and on `c`, each continuing with a handler that
may depend on what the call returned. -/
inductive Prog where
  | done
  | WriteHeader (code : Int) (next : Prog)
  | Status (next : Int → Prog)
  | Written (next : Bool → Prog)
  | Header (next : Header → Prog)
  | SetHeader (f : Header → Header) (next : Prog)
  | Write (data : Option Bytes) (next : Except String Nat → Prog)
  | WriteString (data : Bytes) (next : Except String Nat → Prog)
  | Abort (next : Prog)

/-- The type `gin.HandlerFunc`: a handler, told by the request it reads. -/
abbrev HandlerFunc := Request → Prog

/-- The state a handler acts on: the capture wrapper installed as `c.Writer`,
the package variable `memoryCache`, and the abort mark of the context. -/
structure HandlerState where
  Writer : cachedWriter
  memoryCache : memCache
  aborted : Bool

/-- Runs a handler at clock reading `now`. -/
def runProg (now : Int) : Prog → HandlerState → HandlerState
  | .done, s => s
  | .WriteHeader code next, s => runProg now next { s with Writer := s.Writer.WriteHeader code }
  | .Status next, s => runProg now (next s.Writer.Status) s
  | .Written next, s => runProg now (next s.Writer.Written) s
  | .Header next, s => runProg now (next s.Writer.Header) s
  | .SetHeader f next, s =>
    runProg now next
      { s with Writer := { s.Writer with
          ResponseWriter := { s.Writer.ResponseWriter with
            header := f s.Writer.ResponseWriter.header } } }
  | .Write data next, s =>
    runProg now (next (s.Writer.Write s.memoryCache now data).1)
      { s with Writer := (s.Writer.Write s.memoryCache now data).2.1,
               memoryCache := (s.Writer.Write s.memoryCache now data).2.2 }
  | .WriteString data next, s =>
    runProg now (next (s.Writer.WriteString s.memoryCache now data).1)
      { s with Writer := (s.Writer.WriteString s.memoryCache now data).2.1,
               memoryCache := (s.Writer.WriteString s.memoryCache now data).2.2 }
  | .Abort next, s => runProg now next { s with aborted := true }

/-- The header loop of the replay: for each stored name and each of its values,
`c.Writer.Header().Set(k, v)`. -/
def replayHeader (stored : Header) (live : Header) : Header :=
  stored.foldl (fun h e => e.2.foldl (fun h1 v => headerSet h1 e.1 v) h) live

/-- What one run of the middleware leaves: the context (its writer being the
live writer, inside the wrapper if one was installed), the package variable
`memoryCache`, and how many times `handle` was invoked. -/
structure Outcome where
  c : Context
  memoryCache : memCache
  handlerCalls : Nat

/-- The function `CacheMiddleware(expiration, handle)` applied to the context
`c` at clock reading `now`, with the package variable `memoryCache` and the digest
`sha1Sum` as parameters. The deferred `c.Next()` passes control to the handlers
that follow in gin's chain, which gin would run next in any case; the run
modelled here ends where that call begins. -/
def CacheMiddleware (sha1Sum : Bytes → Bytes) (expiration : Int) (handle : HandlerFunc)
    (now : Int) (c : Context) (memoryCache : memCache) : Outcome :=
  let key := (generateKey sha1Sum c).1
  let c1 := (generateKey sha1Sum c).2
  let execute : Outcome :=
    let writer := newCachedWriter expiration c1.Writer key
    let s := runProg now (handle c1.Request) ⟨writer, memoryCache, c1.aborted⟩
    ⟨{ c1 with Writer := s.Writer.ResponseWriter, aborted := s.aborted },
     if s.aborted then deleteCache s.memoryCache key else s.memoryCache, 1⟩
  match getCache memoryCache now key with
  | .error _ => execute
  | .ok mc =>
    match mc.Data with
    | none => execute
    | some data =>
      let w1 := c1.Writer.WriteHeader mc.Status
      let w2 := { w1 with header := replayHeader mc.Header w1.header }
      let res := w2.Write (some data)
      ⟨{ c1 with Writer := res.2 },
       match res.1 with
       | .error _ => deleteCache memoryCache key
       | .ok _ => memoryCache,
       0⟩

/-! ## Notions used in the statements -/

/-- A byte that a JSON string holds as it is: printable ASCII other than the
quote and the backslash. -/
def PlainByte (c : Nat) : Prop := c ≠ 34 ∧ c ≠ 92 ∧ 32 ≤ c ∧ c < 128

/-- The header map that writing a snapshot and reading it back gives: the
entries in the order of their keys, every name and value coerced to valid
UTF-8, assigned one after the other to an empty map. -/
def coerceHeader (h : Header) : Header :=
  (sortEntries h).foldl (fun acc e => mapAssign acc (toValidUTF8 e.1) (e.2.map toValidUTF8)) []

/-- Every header name and every header value is valid UTF-8. -/
def ValidHeader (h : Header) : Prop :=
  ∀ e ∈ h, utf8Valid e.1 = true ∧ ∀ v ∈ e.2, utf8Valid v = true

/-- The JSON values of an array of strings as it is read back. -/
def stringValues (vs : List Bytes) : List JValue :=
  vs.map (fun v => JValue.string (toValidUTF8 v))

/-- The members of the JSON object of a header map as they are read back. -/
def memberValues (es : List (Bytes × List Bytes)) : List (Bytes × JValue) :=
  es.map (fun e => (toValidUTF8 e.1, JValue.array (stringValues e.2)))

/-- The JSON value of a `[]byte` as it is read back. -/
def dataValue : Option Bytes → JValue
  | none => JValue.null
  | some b => JValue.string (stdEncode b)

/-- The bytes a request's body yields when read to its end (none for a nil body). -/
def bodyBytes (r : Request) : Bytes :=
  match r.Body with
  | none => []
  | some b => (ReadAll b).1

/-- The time to live that `Cache.Set` gives an item stored with duration `d`:
the default of the cache for 0. An item whose time to live is not positive
does not expire. -/
def timeToLive (c : Cache) (d : Int) : Int := if d = 0 then c.defaultExpiration else d

/-- The store holds no item under the key. -/
def Absent (mc : memCache) (key : Bytes) : Prop := mc.cache.items key = none

/-- The store holds an item under the key whose deadline has passed. -/
def Expired (mc : memCache) (now : Int) (key : Bytes) : Prop :=
  ∃ item, mc.cache.items key = some item ∧ item.Expiration > 0 ∧ now > item.Expiration

/-- The store holds an unexpired item under the key that is not the JSON text
of a snapshot: not bytes at all, or bytes that `json.Unmarshal` refuses. -/
def Undecodable (mc : memCache) (now : Int) (key : Bytes) : Prop :=
  ∃ item, mc.cache.items key = some item ∧ ¬ (item.Expiration > 0 ∧ now > item.Expiration) ∧
    match item.Object with
    | .bytes r => ∃ e, unmarshalResponse r = .error e
    | .other => True

/-- The store holds an unexpired, decodable snapshot under the key whose `Data` is nil. -/
def NilData (mc : memCache) (now : Int) (key : Bytes) : Prop :=
  ∃ r, getCache mc now key = .ok r ∧ r.Data = none

/-- Successive calls of `Write` on one wrapper, one per chunk: the results of
the calls in order, the wrapper and the package variable after the last. -/
def writeAll (now : Int) :
    List (Option Bytes) → cachedWriter → memCache → List (Except String Nat) × cachedWriter × memCache
  | [], w, mc => ([], w, mc)
  | d :: ds, w, mc =>
    let res := w.Write mc now d
    let rest := writeAll now ds res.2.1 res.2.2
    (res.1 :: rest.1, rest.2)

/-- The call returned without error. -/
def succeeded : Except String Nat → Bool
  | .ok _ => true
  | .error _ => false

/-! ## Concrete inputs -/

/-- The request `GET /a` without body, with a fresh live writer. -/
def ctxA : Context := ⟨⟨[47, 97], none⟩, freshWriter [], false⟩

/-- The request with URL `/a` and body `b`. -/
def ctxABody : Context := ⟨⟨[47, 97], some ⟨[98], false⟩⟩, freshWriter [], false⟩

/-- The request with URL `/ab` and no body. -/
def ctxAB : Context := ⟨⟨[47, 97, 98], none⟩, freshWriter [], false⟩

/-- A handler that writes `hi` with one `Write`. -/
def hiHandler : HandlerFunc := fun _ => .Write (some [104, 105]) (fun _ => .done)

/-- A handler that writes `hi` with one `Write` and then aborts. -/
def abortHandler : HandlerFunc := fun _ => .Write (some [104, 105]) (fun _ => .Abort .done)

/-- A handler that calls `Write(nil)`. -/
def nilHandler : HandlerFunc := fun _ => .Write none (fun _ => .done)

/-- A handler that adds two `Set-Cookie` values (`a=1`, `b=2`) with
`Header().Add` and writes `hi`. -/
def cookieHandler : HandlerFunc := fun _ =>
  .SetHeader (fun h => headerAdd (headerAdd h
      [83, 101, 116, 45, 67, 111, 111, 107, 105, 101] [97, 61, 49])
      [83, 101, 116, 45, 67, 111, 111, 107, 105, 101] [98, 61, 50])
    (.Write (some [104, 105]) (fun _ => .done))

/-- A snapshot whose header `X` has a value that is not valid UTF-8 (the byte 0xFF). -/
def latin1Snapshot : cacheResponse := ⟨200, [([88], [[255]])], some [104, 105]⟩

/-- The store after `GET /a` was served by the handler that calls `Write(nil)`. -/
def nilStore : memCache :=
  (CacheMiddleware sha1.Sum 1000 nilHandler 0 ctxA memoryCacheInit).memoryCache

/-- The store after `GET /a` was served by the handler with two `Set-Cookie` values. -/
def cookieStore : memCache :=
  (CacheMiddleware sha1.Sum 1000 cookieHandler 0 ctxA memoryCacheInit).memoryCache

/-- A snapshot with a header of two values and a header in UTF-8 (`A: é`). -/
def utf8Snapshot : cacheResponse :=
  ⟨200, [([88, 45, 66], [[49], [50]]), ([65], [[195, 169]])], some [104, 105]⟩

instance (h : Header) : Decidable (NodupKeys h) := by
  unfold NodupKeys; exact inferInstance

instance (h : Header) : Decidable (ValidHeader h) := by
  unfold ValidHeader; exact inferInstance

/-- The concatenation of the chunks (a nil chunk holding no bytes). -/
def concatChunks : List (Option Bytes) → Bytes
  | [] => []
  | d :: ds => d.getD [] ++ concatChunks ds

/-! # Properties

## Library lemmas: SHA-1 test vectors -/

set_option maxRecDepth 1000000 in
/-- The digest of the empty message (FIPS 180 test vector). -/
theorem sha1_empty : sha1.Sum [] =
    [0xda, 0x39, 0xa3, 0xee, 0x5e, 0x6b, 0x4b, 0x0d, 0x32, 0x55,
     0xbf, 0xef, 0x95, 0x60, 0x18, 0x90, 0xaf, 0xd8, 0x07, 0x09] := by decide

set_option maxRecDepth 1000000 in
/-- The digest of `abc` (FIPS 180 test vector). -/
theorem sha1_abc : sha1.Sum [97, 98, 99] =
    [0xa9, 0x99, 0x3e, 0x36, 0x47, 0x06, 0x81, 0x6a, 0xba, 0x3e,
     0x25, 0x71, 0x78, 0x50, 0xc2, 0x6c, 0x9c, 0xd0, 0xd8, 0x9d] := by decide

set_option maxRecDepth 1000000 in
/-- The key of `GET /a` without body: `IlbGrIDT6yaTiXpTxhXEhAmB5ao=`. -/
theorem generateKey_ctxA : (generateKey sha1.Sum ctxA).1 =
    [73, 108, 98, 71, 114, 73, 68, 84, 54, 121, 97, 84, 105, 88, 112, 84, 120, 104,
     88, 69, 104, 65, 109, 66, 53, 97, 111, 61] := by decide

/-! ## Library lemmas: base64 -/

theorem b64DecodeQuanta_full (c62 c63 c0 c1 c2 c3 : Nat) (rest : Bytes) (h3 : c3 ≠ 61) :
    b64DecodeQuanta c62 c63 (c0 :: c1 :: c2 :: c3 :: rest) =
      match b64Val c62 c63 c0, b64Val c62 c63 c1, b64Val c62 c63 c2, b64Val c62 c63 c3 with
      | some v0, some v1, some v2, some v3 =>
        (b64DecodeQuanta c62 c63 rest).map
          (fun t => (v0 * 4 + v1 / 16) :: (v1 % 16 * 16 + v2 / 4) :: (v2 % 4 * 64 + v3) :: t)
      | _, _, _, _ => none := by
  rw [b64DecodeQuanta]
  all_goals simp_all

theorem b64_roundtrip (c62 c63 : Nat)
    (hval : ∀ v, v < 64 → b64Val c62 c63 (b64Char c62 c63 v) = some v)
    (hpad : ∀ v, v < 64 → b64Char c62 c63 v ≠ 61) :
    ∀ (n : Nat) (l : Bytes), l.length ≤ n → IsBytes l →
      b64DecodeQuanta c62 c63 (b64Encode c62 c63 l) = some l := by
  intro n
  induction n with
  | zero =>
    intro l hl _
    have : l = [] := List.length_eq_zero.mp (Nat.le_zero.mp hl)
    subst this
    simp [b64Encode, b64DecodeQuanta]
  | succ n ih =>
    intro l hl hb
    match l, hl, hb with
    | [], _, _ => simp [b64Encode, b64DecodeQuanta]
    | [a], _, hb =>
      have ha : a < 256 := hb a (by simp)
      simp only [b64Encode, b64DecodeQuanta]
      rw [hval _ (by omega), hval _ (by omega)]
      simp; omega
    | [a, b], _, hb =>
      have ha : a < 256 := hb a (by simp)
      have hb' : b < 256 := hb b (by simp)
      simp only [b64Encode]
      rw [b64DecodeQuanta]
      · rw [hval _ (by omega), hval _ (by omega), hval _ (by omega)]
        simp; omega
      · intro h; exact absurd h (hpad _ (by omega))
    | a :: b :: c :: rest, hl, hb =>
      have ha : a < 256 := hb a (by simp)
      have hb' : b < 256 := hb b (by simp)
      have hc : c < 256 := hb c (by simp)
      have hrest : IsBytes rest := fun x hx => hb x (by simp [hx])
      simp only [b64Encode]
      rw [b64DecodeQuanta_full _ _ _ _ _ _ _ (hpad _ (by omega))]
      rw [hval _ (by omega), hval _ (by omega), hval _ (by omega), hval _ (by omega)]
      simp only
      rw [ih rest (by simp at hl; omega) hrest]
      simp
      refine ⟨?_, ?_, ?_⟩ <;> omega


theorem stdVal_char : ∀ v, v < 64 → b64Val 43 47 (b64Char 43 47 v) = some v := by decide
theorem stdChar_ne_pad : ∀ v, v < 64 → b64Char 43 47 v ≠ 61 := by decide
theorem urlVal_char : ∀ v, v < 64 → b64Val 45 95 (b64Char 45 95 v) = some v := by decide

/-! ## Library lemmas: UTF-8 -/

theorem decodeRune_ascii (b : Nat) (r : Bytes) (h : b < 0x80) : decodeRune (b :: r) = (b, 1) := by
  simp [decodeRune, h]

/-- The shapes of a result of `decodeRune` on a first byte that is not ASCII. -/
theorem decodeRune_cases (b : Nat) (r : Bytes) (hb : 0x80 ≤ b) :
    decodeRune (b :: r) = (RuneError, 1) ∨
    (∃ b1 r1, r = b1 :: r1 ∧ 0xC2 ≤ b ∧ b < 0xE0 ∧ 0x80 ≤ b1 ∧ b1 ≤ 0xBF ∧
      decodeRune (b :: r) = (b % 0x20 * 0x40 + b1 % 0x40, 2)) ∨
    (∃ b1 b2 r1, r = b1 :: b2 :: r1 ∧ 0xE0 ≤ b ∧ b < 0xF0 ∧
      (if b = 0xE0 then 0xA0 else 0x80) ≤ b1 ∧ b1 ≤ (if b = 0xED then 0x9F else 0xBF) ∧
      0x80 ≤ b2 ∧ b2 ≤ 0xBF ∧
      decodeRune (b :: r) = (b % 0x10 * 0x1000 + b1 % 0x40 * 0x40 + b2 % 0x40, 3)) ∨
    (∃ b1 b2 b3 r1, r = b1 :: b2 :: b3 :: r1 ∧ 0xF0 ≤ b ∧ b < 0xF5 ∧
      (if b = 0xF0 then 0x90 else 0x80) ≤ b1 ∧ b1 ≤ (if b = 0xF4 then 0x8F else 0xBF) ∧
      0x80 ≤ b2 ∧ b2 ≤ 0xBF ∧ 0x80 ≤ b3 ∧ b3 ≤ 0xBF ∧
      decodeRune (b :: r) =
        (b % 0x08 * 0x40000 + b1 % 0x40 * 0x1000 + b2 % 0x40 * 0x40 + b3 % 0x40, 4)) := by
  have h1 : ¬ b < 0x80 := by omega
  generalize hd : decodeRune (b :: r) = d
  unfold decodeRune at hd
  simp only [if_neg h1] at hd
  by_cases h2 : b < 0xC2
  · rw [if_pos h2] at hd; exact Or.inl hd.symm
  rw [if_neg h2] at hd
  by_cases h3 : b < 0xE0
  · rw [if_pos h3] at hd
    rcases r with _ | ⟨b1, r1⟩
    · exact Or.inl hd.symm
    · by_cases hc : isCont b1 = true
      · simp only [hc, if_true] at hd
        simp only [isCont, Bool.and_eq_true, decide_eq_true_eq] at hc
        exact Or.inr (Or.inl ⟨b1, r1, rfl, by omega, h3, hc.1, hc.2, hd.symm⟩)
      · simp only [hc] at hd; exact Or.inl hd.symm
  rw [if_neg h3] at hd
  by_cases h4 : b < 0xF0
  · rw [if_pos h4] at hd
    rcases r with _ | ⟨b1, _ | ⟨b2, r1⟩⟩
    · exact Or.inl hd.symm
    · exact Or.inl hd.symm
    · simp only at hd
      by_cases hr : (if b = 0xE0 then 0xA0 else 0x80) ≤ b1 ∧ b1 ≤ (if b = 0xED then 0x9F else 0xBF)
      · rw [if_pos hr] at hd
        by_cases hc : isCont b2 = true
        · simp only [hc, if_true] at hd
          simp only [isCont, Bool.and_eq_true, decide_eq_true_eq] at hc
          exact Or.inr (Or.inr (Or.inl ⟨b1, b2, r1, rfl, by omega, h4, hr.1, hr.2, hc.1, hc.2, hd.symm⟩))
        · simp only [hc] at hd; exact Or.inl hd.symm
      · rw [if_neg hr] at hd; exact Or.inl hd.symm
  rw [if_neg h4] at hd
  by_cases h5 : b < 0xF5
  · rw [if_pos h5] at hd
    rcases r with _ | ⟨b1, _ | ⟨b2, _ | ⟨b3, r1⟩⟩⟩
    · exact Or.inl hd.symm
    · exact Or.inl hd.symm
    · exact Or.inl hd.symm
    · simp only at hd
      by_cases hr : (if b = 0xF0 then 0x90 else 0x80) ≤ b1 ∧ b1 ≤ (if b = 0xF4 then 0x8F else 0xBF)
      · rw [if_pos hr] at hd
        by_cases hc : isCont b2 = true
        · simp only [hc, if_true] at hd
          by_cases hd3 : isCont b3 = true
          · simp only [hd3, if_true] at hd
            simp only [isCont, Bool.and_eq_true, decide_eq_true_eq] at hc hd3
            exact Or.inr (Or.inr (Or.inr ⟨b1, b2, b3, r1, rfl, by omega, h5, hr.1, hr.2,
              hc.1, hc.2, hd3.1, hd3.2, hd.symm⟩))
          · simp only [hd3] at hd; exact Or.inl hd.symm
        · simp only [hc] at hd; exact Or.inl hd.symm
      · rw [if_neg hr] at hd; exact Or.inl hd.symm
  rw [if_neg h5] at hd; exact Or.inl hd.symm

theorem isCont_of (b : Nat) (h1 : 0x80 ≤ b) (h2 : b ≤ 0xBF) : isCont b = true := by
  simp [isCont, h1, h2]

theorem decodeRune_two (b b1 : Nat) (t : Bytes) (h1 : 0xC2 ≤ b) (h2 : b < 0xE0)
    (h3 : 0x80 ≤ b1) (h4 : b1 ≤ 0xBF) :
    decodeRune (b :: b1 :: t) = (b % 0x20 * 0x40 + b1 % 0x40, 2) := by
  unfold decodeRune
  simp only [if_neg (show ¬ b < 0x80 by omega), if_neg (show ¬ b < 0xC2 by omega), if_pos h2,
    isCont_of b1 h3 h4, if_true]

theorem decodeRune_three (b b1 b2 : Nat) (t : Bytes) (h1 : 0xE0 ≤ b) (h2 : b < 0xF0)
    (h3 : (if b = 0xE0 then 0xA0 else 0x80) ≤ b1) (h4 : b1 ≤ (if b = 0xED then 0x9F else 0xBF))
    (h5 : 0x80 ≤ b2) (h6 : b2 ≤ 0xBF) :
    decodeRune (b :: b1 :: b2 :: t) = (b % 0x10 * 0x1000 + b1 % 0x40 * 0x40 + b2 % 0x40, 3) := by
  unfold decodeRune
  simp only [if_neg (show ¬ b < 0x80 by omega), if_neg (show ¬ b < 0xC2 by omega),
    if_neg (show ¬ b < 0xE0 by omega), if_pos h2, if_pos (And.intro h3 h4),
    isCont_of b2 h5 h6, if_true]

theorem decodeRune_four (b b1 b2 b3 : Nat) (t : Bytes) (h1 : 0xF0 ≤ b) (h2 : b < 0xF5)
    (h3 : (if b = 0xF0 then 0x90 else 0x80) ≤ b1) (h4 : b1 ≤ (if b = 0xF4 then 0x8F else 0xBF))
    (h5 : 0x80 ≤ b2) (h6 : b2 ≤ 0xBF) (h7 : 0x80 ≤ b3) (h8 : b3 ≤ 0xBF) :
    decodeRune (b :: b1 :: b2 :: b3 :: t) =
      (b % 0x08 * 0x40000 + b1 % 0x40 * 0x1000 + b2 % 0x40 * 0x40 + b3 % 0x40, 4) := by
  unfold decodeRune
  simp only [if_neg (show ¬ b < 0x80 by omega), if_neg (show ¬ b < 0xC2 by omega),
    if_neg (show ¬ b < 0xE0 by omega), if_neg (show ¬ b < 0xF0 by omega), if_pos h2,
    if_pos (And.intro h3 h4), isCont_of b2 h5 h6, isCont_of b3 h7 h8, if_true]

/-- A valid encoding of more than one byte is what `encodeRune` writes for its
rune, and decoding looks at no byte beyond it. -/
theorem decodeRune_valid (b : Nat) (r : Bytes) (hb : 0x80 ≤ b)
    (hv : isInvalid (decodeRune (b :: r)) = false) :
    encodeRune (decodeRune (b :: r)).1 = (b :: r).take (decodeRune (b :: r)).2 ∧
    ∀ t, decodeRune ((b :: r).take (decodeRune (b :: r)).2 ++ t) = decodeRune (b :: r) := by
  rcases decodeRune_cases b r hb with h | ⟨b1, r1, rfl, h1, h2, h3, h4, h⟩ |
    ⟨b1, b2, r1, rfl, h1, h2, h3, h4, h5, h6, h⟩ |
    ⟨b1, b2, b3, r1, rfl, h1, h2, h3, h4, h5, h6, h7, h8, h⟩
  · rw [h] at hv; simp [isInvalid] at hv
  · rw [h]
    refine ⟨?_, fun t => ?_⟩
    · simp only [List.take_succ_cons, List.take_zero]
      rw [encodeRune, if_neg (by omega), if_pos (by omega)]
      congr 1
      · omega
      · congr 1; omega
    · simp only [List.take_succ_cons, List.take_zero, List.cons_append, List.nil_append]
      exact decodeRune_two b b1 t h1 h2 h3 h4
  · rw [h]
    refine ⟨?_, fun t => ?_⟩
    · simp only [List.take_succ_cons, List.take_zero]
      split_ifs at h3 h4 <;>
      · rw [encodeRune, if_neg (by omega), if_neg (by omega), if_neg (by omega), if_pos (by omega)]
        congr 1
        · omega
        · congr 1
          · omega
          · congr 1; omega
    · simp only [List.take_succ_cons, List.take_zero, List.cons_append, List.nil_append]
      exact decodeRune_three b b1 b2 t h1 h2 h3 h4 h5 h6
  · rw [h]
    refine ⟨?_, fun t => ?_⟩
    · simp only [List.take_succ_cons, List.take_zero]
      split_ifs at h3 h4 <;>
      · rw [encodeRune, if_neg (by omega), if_neg (by omega), if_neg (by omega), if_neg (by omega)]
        congr 1
        · omega
        · congr 1
          · omega
          · congr 1
            · omega
            · congr 1; omega
    · simp only [List.take_succ_cons, List.take_zero, List.cons_append, List.nil_append]
      exact decodeRune_four b b1 b2 b3 t h1 h2 h3 h4 h5 h6 h7 h8

/-! ## Library lemmas: reading a JSON string -/

theorem hexVal_hexChar : ∀ n, n < 16 → hexVal (hexChar n) = some n := by decide

theorem readString_close (n : Nat) (rest : Bytes) :
    readString (n + 1) (34 :: rest) = some ([], rest) := by
  simp [readString]

theorem readString_plain (n c : Nat) (rest : Bytes) (h1 : c ≠ 34) (h2 : c ≠ 92) (h3 : 32 ≤ c)
    (h4 : c < 128) : readString (n + 1) (c :: rest) = prepend [c] (readString n rest) := by
  conv_lhs => unfold readString
  simp only [if_neg h1, if_neg h2, if_neg (show ¬ c < 32 by omega), if_pos h4]

theorem readString_raw (n c : Nat) (rest : Bytes) (h : 128 ≤ c) :
    readString (n + 1) (c :: rest) =
      prepend (encodeRune (decodeRune (c :: rest)).1)
        (readString n ((c :: rest).drop (decodeRune (c :: rest)).2)) := by
  conv_lhs => unfold readString
  simp only [if_neg (show ¬ c = 34 by omega), if_neg (show ¬ c = 92 by omega),
    if_neg (show ¬ c < 32 by omega), if_neg (show ¬ c < 128 by omega)]

theorem readString_u4 (n a b c d v : Nat) (rest : Bytes)
    (hg : getu4 (a :: b :: c :: d :: rest) = some (v, rest)) (hv : v < 0xD800 ∨ 0xE000 ≤ v) :
    readString (n + 1) (92 :: 117 :: a :: b :: c :: d :: rest) =
      prepend (encodeRune v) (readString n rest) := by
  rw [readString]
  simp only [if_neg (show ¬ (92 : Nat) = 34 by decide), if_true]
  simp only [show ¬ ((117 : Nat) = 34 ∨ (117 : Nat) = 92 ∨ (117 : Nat) = 47) by decide, if_false,
    if_neg (show ¬ (117 : Nat) = 98 by decide), if_neg (show ¬ (117 : Nat) = 102 by decide),
    if_neg (show ¬ (117 : Nat) = 110 by decide), if_neg (show ¬ (117 : Nat) = 114 by decide),
    if_neg (show ¬ (117 : Nat) = 116 by decide), if_true, hg]
  rw [if_neg (by omega)]

theorem readString_escapeByte (n b : Nat) (rest : Bytes) (hb : b < 128)
    (hs : htmlSafe b = false) :
    readString (n + 1) (escapeByte b ++ rest) = prepend [b] (readString n rest) := by
  unfold escapeByte
  split_ifs with h1 h2 h3 h4 h5 h6
  · rcases h1 with rfl | rfl <;> simp [readString]
  · subst h2; simp [readString]
  · subst h3; simp [readString]
  · subst h4; simp [readString]
  · subst h5; simp [readString]
  · subst h6; simp [readString]
  · have hg : getu4 (48 :: 48 :: hexChar (b / 16) :: hexChar (b % 16) :: rest) = some (b, rest) := by
      simp only [getu4, hexVal_hexChar (b / 16) (by omega), hexVal_hexChar (b % 16) (by omega)]
      simp [hexVal]
      omega
    have := readString_u4 n 48 48 (hexChar (b / 16)) (hexChar (b % 16)) b rest hg (by omega)
    simp only [List.cons_append, List.nil_append]
    rw [this, encodeRune, if_pos hb]

theorem readString_ufffd (n : Nat) (rest : Bytes) :
    readString (n + 1) ([92, 117, 102, 102, 102, 100] ++ rest) =
      prepend [0xEF, 0xBF, 0xBD] (readString n rest) := by
  have hg : getu4 (102 :: 102 :: 102 :: 100 :: rest) = some (0xFFFD, rest) := by
    simp [getu4, hexVal]
  have := readString_u4 n 102 102 102 100 0xFFFD rest hg (by omega)
  simp only [List.cons_append, List.nil_append]
  rw [this]
  simp [encodeRune]

theorem readString_u202 (n c : Nat) (rest : Bytes) (hc : c = 0x2028 ∨ c = 0x2029) :
    readString (n + 1) ([92, 117, 50, 48, 50, hexChar (c % 16)] ++ rest) =
      prepend (encodeRune c) (readString n rest) := by
  have hg : getu4 (50 :: 48 :: 50 :: hexChar (c % 16) :: rest) = some (c, rest) := by
    rcases hc with rfl | rfl <;> simp [getu4, hexVal, hexChar]
  have := readString_u4 n 50 48 50 (hexChar (c % 16)) c rest hg (by omega)
  simp only [List.cons_append, List.nil_append]
  rw [this]

theorem prepend_some (p t r : Bytes) : prepend p (some (t, r)) = some (p ++ t, r) := rfl

theorem decodeRune_size (b : Nat) (r : Bytes) :
    1 ≤ (decodeRune (b :: r)).2 ∧ (decodeRune (b :: r)).2 ≤ (b :: r).length := by
  by_cases hb : b < 0x80
  · rw [decodeRune_ascii b r hb]; simp
  · rcases decodeRune_cases b r (by omega) with h | ⟨b1, r1, rfl, _, _, _, _, h⟩ |
      ⟨b1, b2, r1, rfl, _, _, _, _, _, _, h⟩ | ⟨b1, b2, b3, r1, rfl, _, _, _, _, _, _, _, _, h⟩ <;>
    rw [h] <;> simp

theorem isInvalid_ascii (b : Nat) (r : Bytes) (hb : b < 0x80) :
    isInvalid (decodeRune (b :: r)) = false := by
  rw [decodeRune_ascii b r hb]
  simp [isInvalid, RuneError]
  omega

theorem toValidUTF8Aux_ascii (m b : Nat) (r : Bytes) (hb : b < 0x80) :
    toValidUTF8Aux (m + 1) (b :: r) = b :: toValidUTF8Aux m r := by
  rw [toValidUTF8Aux, isInvalid_ascii b r hb, decodeRune_ascii b r hb]
  simp

theorem escapeByte_length (b : Nat) : 2 ≤ (escapeByte b).length := by
  unfold escapeByte
  split_ifs <;> simp

theorem htmlSafe_bounds (b : Nat) (h : htmlSafe b = true) :
    b ≠ 34 ∧ b ≠ 92 ∧ 32 ≤ b ∧ b < 128 := by
  simp only [htmlSafe, Bool.and_eq_true, decide_eq_true_eq, bne_iff_ne, ne_eq] at h
  omega

/-- Reading back a written string gives the string coerced to valid UTF-8. -/
theorem readString_appendString (m : Nat) : ∀ (s rest : Bytes) (n : Nat), s.length ≤ m →
    (appendStringAux m s).length < n →
    readString n (appendStringAux m s ++ 34 :: rest) = some (toValidUTF8Aux m s, rest) := by
  induction m with
  | zero =>
    intro s rest n hs hn
    obtain ⟨k, rfl⟩ : ∃ k, n = k + 1 := ⟨n - 1, by omega⟩
    simp only [appendStringAux, toValidUTF8Aux, List.nil_append]
    exact readString_close k rest
  | succ m ih =>
    intro s rest n hs hn
    obtain ⟨k, rfl⟩ : ∃ k, n = k + 1 := ⟨n - 1, by omega⟩
    rcases s with _ | ⟨b, r⟩
    · simp only [appendStringAux, toValidUTF8Aux, List.nil_append]
      exact readString_close k rest
    · have hr : r.length ≤ m := by simpa using hs
      have hsz := decodeRune_size b r
      have hdrop : ((b :: r).drop (decodeRune (b :: r)).2).length ≤ m := by
        rw [List.length_drop]; simp only [List.length_cons] at hsz ⊢; omega
      by_cases hb : b < 0x80
      · rw [toValidUTF8Aux_ascii m b r hb]
        rw [appendStringAux, if_pos hb] at hn ⊢
        by_cases hsafe : htmlSafe b = true
        · rw [if_pos hsafe] at hn ⊢
          obtain ⟨h1, h2, h3, h4⟩ := htmlSafe_bounds b hsafe
          simp only [List.cons_append, List.nil_append, List.length_cons] at hn ⊢
          rw [readString_plain k b _ h1 h2 h3 h4, ih r rest k hr (by omega), prepend_some]
          rfl
        · rw [if_neg hsafe] at hn ⊢
          have hl := escapeByte_length b
          rw [List.length_append] at hn
          rw [List.append_assoc, readString_escapeByte k b _ hb (by simpa using hsafe),
            ih r rest k hr (by omega), prepend_some]
          rfl
      · by_cases hinv : isInvalid (decodeRune (b :: r)) = true
        · rw [appendStringAux, if_neg hb, if_pos hinv] at hn ⊢
          rw [toValidUTF8Aux, if_pos hinv]
          rw [List.length_append] at hn
          simp only [List.length_cons, List.length_nil] at hn
          rw [List.append_assoc, readString_ufffd k, ih r rest k hr (by omega), prepend_some]
        · have hv : isInvalid (decodeRune (b :: r)) = false := by simpa using hinv
          obtain ⟨henc, hdec⟩ := decodeRune_valid b r (by omega) hv
          rw [toValidUTF8Aux, if_neg hinv]
          by_cases hls : (decodeRune (b :: r)).1 = 0x2028 ∨ (decodeRune (b :: r)).1 = 0x2029
          · rw [appendStringAux, if_neg hb, if_neg hinv, if_pos hls] at hn ⊢
            rw [List.length_append] at hn
            simp only [List.length_cons, List.length_nil] at hn
            rw [List.append_assoc, readString_u202 k _ _ hls, ih _ rest k hdrop (by omega),
              prepend_some, henc]
          · rw [appendStringAux, if_neg hb, if_neg hinv, if_neg hls] at hn ⊢
            rw [List.length_append] at hn
            have hlen : ((b :: r).take (decodeRune (b :: r)).2).length = (decodeRune (b :: r)).2 := by
              rw [List.length_take]; omega
            obtain ⟨j, hj⟩ : ∃ j, (decodeRune (b :: r)).2 = j + 1 :=
              ⟨(decodeRune (b :: r)).2 - 1, by omega⟩
            have htake : (b :: r).take (decodeRune (b :: r)).2 = b :: r.take j := by
              rw [hj]; rfl
            rw [List.append_assoc]
            generalize hX : appendStringAux m ((b :: r).drop (decodeRune (b :: r)).2) ++ 34 :: rest = X
            have hread : readString (k + 1) ((b :: r).take (decodeRune (b :: r)).2 ++ X) =
                prepend (encodeRune (decodeRune ((b :: r).take (decodeRune (b :: r)).2 ++ X)).1)
                  (readString k (((b :: r).take (decodeRune (b :: r)).2 ++ X).drop
                    (decodeRune ((b :: r).take (decodeRune (b :: r)).2 ++ X)).2)) := by
              rw [htake]
              exact readString_raw k b (r.take j ++ X) (by omega)
            rw [hread, hdec X, henc, List.drop_left' hlen, ← hX, ih _ rest k hdrop (by omega),
              prepend_some]

/-! ## Library lemmas: numbers -/

theorem formatNatAux_eq (n : Nat) : ∀ (fuel : Nat) (acc : Bytes), n < fuel →
    formatNatAux fuel n acc = formatNat n ++ acc := by
  induction n using Nat.strong_induction_on with
  | _ n ih =>
    intro fuel acc hf
    obtain ⟨f, rfl⟩ : ∃ f, fuel = f + 1 := ⟨fuel - 1, by omega⟩
    by_cases h : n < 10
    · simp [formatNat, formatNatAux, h]
    · have h1 : formatNatAux (f + 1) n acc = formatNatAux f (n / 10) ((48 + n % 10) :: acc) := by
        rw [formatNatAux, if_neg h]
      have h2 : formatNat n = formatNatAux n (n / 10) [48 + n % 10] := by
        rw [formatNat, formatNatAux, if_neg h]
      rw [h1, h2, ih (n / 10) (by omega) f _ (by omega), ih (n / 10) (by omega) n _ (by omega)]
      simp

theorem formatNat_small (n : Nat) (h : n < 10) : formatNat n = [48 + n] := by
  simp [formatNat, formatNatAux, h]

theorem formatNat_big (n : Nat) (h : ¬ n < 10) :
    formatNat n = formatNat (n / 10) ++ [48 + n % 10] := by
  have h2 : formatNat n = formatNatAux n (n / 10) [48 + n % 10] := by
    rw [formatNat, formatNatAux, if_neg h]
  rw [h2, formatNatAux_eq (n / 10) n _ (by omega)]

theorem digitsValue_cons (acc c : Nat) (t : Bytes) :
    digitsValue acc (c :: t) = digitsValue (acc * 10 + (c - 48)) t := rfl

theorem digitsValue_nil (acc : Nat) : digitsValue acc [] = acc := rfl

theorem digitsValue_append (l1 l2 : Bytes) : ∀ acc,
    digitsValue acc (l1 ++ l2) = digitsValue (digitsValue acc l1) l2 := by
  induction l1 with
  | nil => intro acc; rfl
  | cons c t ih =>
    intro acc
    rw [List.cons_append, digitsValue_cons, digitsValue_cons]
    exact ih _

theorem digitsValue_formatNat (n : Nat) : digitsValue 0 (formatNat n) = n := by
  induction n using Nat.strong_induction_on with
  | _ n ih =>
    by_cases h : n < 10
    · rw [formatNat_small n h, digitsValue_cons, digitsValue_nil]; omega
    · rw [formatNat_big n h, digitsValue_append, ih (n / 10) (by omega), digitsValue_cons,
        digitsValue_nil]
      omega

/-- The decimal text of a number: a first digit, which is `0` only for the
number 0, followed by digits. -/
theorem formatNat_shape (n : Nat) : ∃ c t, formatNat n = c :: t ∧ 48 ≤ c ∧ c ≤ 57 ∧
    (c = 48 → n = 0 ∧ t = []) ∧ t.all isDigit = true := by
  induction n using Nat.strong_induction_on with
  | _ n ih =>
    by_cases h : n < 10
    · refine ⟨48 + n, [], formatNat_small n h, by omega, by omega, fun hc => ⟨by omega, rfl⟩, rfl⟩
    · obtain ⟨c, t, hct, h1, h2, h3, h4⟩ := ih (n / 10) (by omega)
      refine ⟨c, t ++ [48 + n % 10], ?_, h1, h2, ?_, ?_⟩
      · rw [formatNat_big n h, hct]; rfl
      · intro hc; have := (h3 hc).1; omega
      · rw [List.all_append, h4]
        simp [isDigit]; omega

theorem span_digits (t rest : Bytes) (ht : t.all isDigit = true) (c : Nat) (hc : isDigit c = false) :
    (t ++ c :: rest).takeWhile isDigit = t ∧ (t ++ c :: rest).dropWhile isDigit = c :: rest := by
  induction t with
  | nil => simp [List.takeWhile, List.dropWhile, hc]
  | cons a t ih =>
    simp only [List.all_cons, Bool.and_eq_true] at ht
    simp [List.takeWhile, List.dropWhile, ht.1, ih ht.2]

theorem readInt_formatNat (n : Nat) (rest : Bytes) :
    readInt (formatNat n ++ 44 :: rest) = some (formatNat n, 44 :: rest) := by
  obtain ⟨c, t, hct, h1, h2, h3, h4⟩ := formatNat_shape n
  rw [hct]
  by_cases hc : c = 48
  · obtain ⟨_, rfl⟩ := h3 hc
    subst hc
    rfl
  · have hs := span_digits t rest h4 44 (by decide)
    simp only [List.cons_append]
    rw [readInt]
    · rw [if_pos ⟨by omega, h2⟩, hs.1, hs.2]
    · intro h; exact hc h

theorem readUnsigned_formatNat (n : Nat) (rest : Bytes) :
    readUnsigned (formatNat n ++ 44 :: rest) = some (formatNat n, 44 :: rest) := by
  have hf : readFrac (44 :: rest) = some ([], 44 :: rest) := by
    rw [readFrac]; intro r h; simp at h
  have he : readExp (44 :: rest) = some ([], 44 :: rest) := by
    simp [readExp]
  simp only [readUnsigned, readInt_formatNat, hf, he]
  simp

theorem readNumber_formatInt (i : Int) (rest : Bytes) :
    readNumber (formatInt i ++ 44 :: rest) = some (formatInt i, 44 :: rest) := by
  obtain ⟨c, t, hct, h1, h2, h3, h4⟩ := formatNat_shape i.natAbs
  have hri := readUnsigned_formatNat i.natAbs rest
  unfold formatInt
  by_cases hneg : i < 0
  · rw [if_pos hneg]
    simp only [List.cons_append, readNumber, hri]
    rfl
  · rw [if_neg hneg]
    rw [hct] at hri ⊢
    simp only [List.cons_append] at hri ⊢
    rw [readNumber]
    · exact hri
    · intro r h; simp at h; omega

theorem parseInt64_formatInt (i : Int) (h1 : -(2 ^ 63) ≤ i) (h2 : i < 2 ^ 63) :
    parseInt64 (formatInt i) = some i := by
  obtain ⟨c, t, hct, hc1, hc2, hc3, hc4⟩ := formatNat_shape i.natAbs
  have hv := digitsValue_formatNat i.natAbs
  have hall : (formatNat i.natAbs).all isDigit = true := by
    rw [hct, List.all_cons, hc4]; simp [isDigit]; omega
  have hne : formatNat i.natAbs ≠ [] := by rw [hct]; simp
  unfold formatInt
  by_cases hneg : i < 0
  · rw [if_pos hneg]
    simp only [parseInt64]
    rw [if_pos ⟨hne, hall, by rw [hv]; omega⟩, hv]
    congr 1; omega
  · rw [if_neg hneg]
    rw [hct] at hv hall hne ⊢
    have hc45 : c ≠ 45 := by omega
    unfold parseInt64
    split
    · rename_i heq; simp at heq; exact absurd heq.1 hc45
    · rw [if_pos ⟨hne, hall, by rw [hv]; omega⟩, hv]
      congr 1; omega

/-! ## Library lemmas: plain strings and base64 text -/

theorem readString_plainBytes (s : Bytes) : ∀ (rest : Bytes) (n : Nat),
    (∀ c ∈ s, PlainByte c) → s.length < n → readString n (s ++ 34 :: rest) = some (s, rest) := by
  induction s with
  | nil =>
    intro rest n _ hn
    obtain ⟨k, rfl⟩ : ∃ k, n = k + 1 := ⟨n - 1, by simp at hn; omega⟩
    exact readString_close k rest
  | cons c t ih =>
    intro rest n hs hn
    obtain ⟨k, rfl⟩ : ∃ k, n = k + 1 := ⟨n - 1, by simp at hn; omega⟩
    obtain ⟨h1, h2, h3, h4⟩ := hs c (by simp)
    simp only [List.cons_append]
    rw [readString_plain k c _ h1 h2 h3 h4,
      ih rest k (fun x hx => hs x (by simp [hx])) (by simp at hn; omega), prepend_some]
    rfl

theorem b64Char_plain (c62 c63 v : Nat) (h62 : PlainByte c62) (h63 : PlainByte c63) :
    PlainByte (b64Char c62 c63 v) := by
  unfold b64Char PlainByte at *
  split_ifs <;> omega

theorem b64Encode_plain (c62 c63 : Nat) (h62 : PlainByte c62) (h63 : PlainByte c63) :
    ∀ (n : Nat) (l : Bytes), l.length ≤ n → ∀ c ∈ b64Encode c62 c63 l, PlainByte c := by
  have hp : PlainByte 61 := by unfold PlainByte; omega
  intro n
  induction n with
  | zero =>
    intro l hl c hc
    have : l = [] := List.length_eq_zero.mp (Nat.le_zero.mp hl)
    subst this
    simp [b64Encode] at hc
  | succ n ih =>
    intro l hl c hc
    match l, hl, hc with
    | [], _, hc => simp [b64Encode] at hc
    | [a], _, hc =>
      simp only [b64Encode, List.mem_cons, List.mem_singleton, List.not_mem_nil, or_false] at hc
      rcases hc with rfl | rfl | rfl | rfl <;> first | exact b64Char_plain _ _ _ h62 h63 | exact hp
    | [a, b], _, hc =>
      simp only [b64Encode, List.mem_cons, List.mem_singleton, List.not_mem_nil, or_false] at hc
      rcases hc with rfl | rfl | rfl | rfl <;> first | exact b64Char_plain _ _ _ h62 h63 | exact hp
    | a :: b :: c' :: rest, hl, hc =>
      simp only [b64Encode, List.mem_cons] at hc
      rcases hc with rfl | rfl | rfl | rfl | hc
      · exact b64Char_plain _ _ _ h62 h63
      · exact b64Char_plain _ _ _ h62 h63
      · exact b64Char_plain _ _ _ h62 h63
      · exact b64Char_plain _ _ _ h62 h63
      · exact ih rest (by simp at hl; omega) c hc

theorem stdEncode_plain (l : Bytes) : ∀ c ∈ stdEncode l, PlainByte c :=
  b64Encode_plain 43 47 (by unfold PlainByte; omega) (by unfold PlainByte; omega) l.length l
    (Nat.le_refl _)

theorem urlEncode_plain (l : Bytes) : ∀ c ∈ urlEncode l, PlainByte c :=
  b64Encode_plain 45 95 (by unfold PlainByte; omega) (by unfold PlainByte; omega) l.length l
    (Nat.le_refl _)

theorem stdDecode_stdEncode (l : Bytes) (h : IsBytes l) : stdDecode (stdEncode l) = some l := by
  unfold stdDecode b64Decode
  have hf : (stdEncode l).filter (fun c => c != 13 && c != 10) = stdEncode l := by
    rw [List.filter_eq_self]
    intro c hc
    have := stdEncode_plain l c hc
    unfold PlainByte at this
    simp only [Bool.and_eq_true, bne_iff_ne, ne_eq]
    omega
  rw [hf]
  exact b64_roundtrip 43 47 stdVal_char stdChar_ne_pad l.length l (Nat.le_refl _) h

theorem urlChar_ne_pad : ∀ v, v < 64 → b64Char 45 95 v ≠ 61 := by decide

/-- The URL encoding is injective on byte strings. -/
theorem urlEncode_injective (x y : Bytes) (hx : IsBytes x) (hy : IsBytes y)
    (h : urlEncode x = urlEncode y) : x = y := by
  have h1 := b64_roundtrip 45 95 urlVal_char urlChar_ne_pad x.length x (Nat.le_refl _) hx
  have h2 := b64_roundtrip 45 95 urlVal_char urlChar_ne_pad y.length y (Nat.le_refl _) hy
  unfold urlEncode at h
  rw [h, h2] at h1
  exact (Option.some.inj h1).symm

/-! ## Library lemmas: reading what was written -/

theorem skipSpace_cons (c : Nat) (r : Bytes) (h : isSpace c = false) :
    skipSpace (c :: r) = c :: r := by
  simp [skipSpace, h]

theorem readScalar_string (r : Bytes) :
    readScalar (34 :: r) = (readString r.length r).map (fun p => (JValue.string p.1, p.2)) := by
  simp [readScalar]

theorem readScalar_number (c : Nat) (r : Bytes) (h : c = 45 ∨ (48 ≤ c ∧ c ≤ 57)) :
    readScalar (c :: r) = (readNumber (c :: r)).map (fun p => (JValue.number p.1, p.2)) := by
  have hd : (c = 45 ∨ isDigit c = true) := by
    rcases h with h | h
    · exact Or.inl h
    · right; simp [isDigit, h.1, h.2]
  unfold readScalar
  split
  · rename_i heq; simp at heq; omega
  · rename_i heq; simp at heq; omega
  · rename_i heq; simp at heq; omega
  · rename_i c' r' _ _ _ heq
    simp only [List.cons.injEq] at heq
    obtain ⟨rfl, rfl⟩ := heq
    rw [if_neg (by omega), if_pos hd]
  · rename_i heq; simp at heq

theorem readScalar_null (r : Bytes) :
    readScalar (110 :: 117 :: 108 :: 108 :: r) = some (JValue.null, r) := by
  simp [readScalar]

/-- A value that opens no array or object is read at any depth. -/
theorem readValue_scalar (d c : Nat) (r : Bytes) (h1 : isSpace c = false) (h2 : c ≠ 123)
    (h3 : c ≠ 91) : readValue d (c :: r) = readScalar (c :: r) := by
  cases d with
  | zero => rw [readValue, skipSpace_cons c r h1]
  | succ d =>
    rw [readValue, skipSpace_cons c r h1]
    simp only [if_neg h2, if_neg h3]

theorem appendStringAux_length_quote (v X : Bytes) :
    (appendStringAux v.length v).length < (appendStringAux v.length v ++ 34 :: X).length := by
  simp

theorem readValue_quoteString (d : Nat) (v X : Bytes) :
    readValue d (quoteString v ++ X) = some (JValue.string (toValidUTF8 v), X) := by
  have h : quoteString v ++ X = 34 :: (appendStringAux v.length v ++ 34 :: X) := by
    simp [quoteString]
  rw [h, readValue_scalar d 34 _ (by decide) (by decide) (by decide), readScalar_string,
    readString_appendString v.length v X _ (Nat.le_refl _) (appendStringAux_length_quote v X)]
  rfl

theorem formatInt_head (i : Int) : ∃ c t, formatInt i = c :: t ∧ (c = 45 ∨ (48 ≤ c ∧ c ≤ 57)) := by
  obtain ⟨c, t, hct, h1, h2, _, _⟩ := formatNat_shape i.natAbs
  unfold formatInt
  split_ifs
  · exact ⟨45, _, rfl, Or.inl rfl⟩
  · exact ⟨c, t, hct, Or.inr ⟨h1, h2⟩⟩

theorem readValue_formatInt (d : Nat) (i : Int) (X : Bytes) :
    readValue d (formatInt i ++ 44 :: X) = some (JValue.number (formatInt i), 44 :: X) := by
  obtain ⟨c, t, hct, hc⟩ := formatInt_head i
  have hn := readNumber_formatInt i X
  rw [hct] at hn ⊢
  simp only [List.cons_append] at hn ⊢
  have hsp : isSpace c = false := by
    simp only [isSpace, Bool.or_eq_false_iff, beq_eq_false_iff_ne, ne_eq]
    omega
  rw [readValue_scalar d c _ hsp (by omega) (by omega), readScalar_number c _ hc, hn]
  rfl

theorem readValue_null (d : Nat) (X : Bytes) :
    readValue d (110 :: 117 :: 108 :: 108 :: X) = some (JValue.null, X) := by
  rw [readValue_scalar d 110 _ (by decide) (by decide) (by decide), readScalar_null]

theorem readValue_plainString (d : Nat) (s X : Bytes) (hs : ∀ c ∈ s, PlainByte c) :
    readValue d (34 :: (s ++ 34 :: X)) = some (JValue.string s, X) := by
  rw [readValue_scalar d 34 _ (by decide) (by decide) (by decide), readScalar_string,
    readString_plainBytes s X _ hs (by simp)]
  rfl

theorem readElems_strings (d : Nat) (vs : List Bytes) : ∀ (v : Bytes) (X : Bytes) (n : Nat),
    vs.length < n →
    readElems (readValue d) n (encodeStringElems (v :: vs) ++ 93 :: X) =
      some (stringValues (v :: vs), X) := by
  induction vs with
  | nil =>
    intro v X n hn
    obtain ⟨k, rfl⟩ : ∃ k, n = k + 1 := ⟨n - 1, by simp at hn; omega⟩
    rw [encodeStringElems, readElems, readValue_quoteString]
    simp only [skipSpace_cons 93 X (by decide)]
    rfl
  | cons w ws ih =>
    intro v X n hn
    obtain ⟨k, rfl⟩ : ∃ k, n = k + 1 := ⟨n - 1, by simp at hn; omega⟩
    have h : encodeStringElems (v :: w :: ws) ++ 93 :: X =
        quoteString v ++ 44 :: (encodeStringElems (w :: ws) ++ 93 :: X) := by
      simp [encodeStringElems]
    rw [h, readElems, readValue_quoteString]
    simp only [skipSpace_cons 44 _ (by decide)]
    rw [ih w X k (by simp at hn; omega)]
    rfl

theorem quoteString_length (v : Bytes) : 2 ≤ (quoteString v).length := by
  simp [quoteString]

theorem encodeStringElems_length (vs : List Bytes) : vs.length ≤ (encodeStringElems vs).length := by
  induction vs with
  | nil => simp [encodeStringElems]
  | cons v vs ih =>
    cases vs with
    | nil => have := quoteString_length v; simp [encodeStringElems]; omega
    | cons w ws =>
      have := quoteString_length v
      simp only [encodeStringElems, List.length_append, List.length_cons] at ih ⊢
      omega

theorem quoteString_head (v : Bytes) : ∃ t, quoteString v = 34 :: t := ⟨_, rfl⟩

theorem encodeStringElems_head (v : Bytes) (vs : List Bytes) :
    ∃ t, encodeStringElems (v :: vs) = 34 :: t := by
  cases vs with
  | nil => exact ⟨_, rfl⟩
  | cons w ws => exact ⟨_, rfl⟩

theorem readValue_stringSlice (d : Nat) (vs : List Bytes) (X : Bytes) :
    readValue (d + 1) (encodeStringSlice vs ++ X) = some (JValue.array (stringValues vs), X) := by
  cases vs with
  | nil =>
    have h : encodeStringSlice [] ++ X = 91 :: 93 :: X := by simp [encodeStringSlice, encodeStringElems]
    rw [h, readValue, skipSpace_cons 91 _ (by decide)]
    simp only [if_neg (show ¬ (91 : Nat) = 123 by decide), if_true,
      skipSpace_cons 93 X (by decide)]
    rfl
  | cons v vs =>
    obtain ⟨t, ht⟩ := encodeStringElems_head v vs
    have h : encodeStringSlice (v :: vs) ++ X = 91 :: (encodeStringElems (v :: vs) ++ 93 :: X) := by
      simp [encodeStringSlice]
    have hlen := encodeStringElems_length (v :: vs)
    rw [h, readValue, skipSpace_cons 91 _ (by decide)]
    simp only [if_neg (show ¬ (91 : Nat) = 123 by decide), if_true]
    rw [readElems_strings d vs v X _ (by simp at hlen ⊢; omega)]
    rw [ht]
    simp only [List.cons_append, skipSpace_cons 34 _ (by decide)]
    rfl

theorem readMembers_more (pv : Bytes → Option (JValue × Bytes)) (n : Nat) (key : Bytes)
    (v : JValue) (r r2 r4 : Bytes) (hk : readString r.length r = some (key, 58 :: r2))
    (hv : pv r2 = some (v, 44 :: r4)) :
    readMembers pv (n + 1) (34 :: r) =
      (readMembers pv n r4).map (fun p => ((key, v) :: p.1, p.2)) := by
  rw [readMembers]
  simp only [skipSpace_cons 34 r (by decide), hk, skipSpace_cons 58 r2 (by decide), hv,
    skipSpace_cons 44 r4 (by decide)]

theorem readMembers_last (pv : Bytes → Option (JValue × Bytes)) (n : Nat) (key : Bytes)
    (v : JValue) (r r2 r4 : Bytes) (hk : readString r.length r = some (key, 58 :: r2))
    (hv : pv r2 = some (v, 125 :: r4)) :
    readMembers pv (n + 1) (34 :: r) = some ([(key, v)], r4) := by
  rw [readMembers]
  simp only [skipSpace_cons 34 r (by decide), hk, skipSpace_cons 58 r2 (by decide), hv,
    skipSpace_cons 125 r4 (by decide)]

theorem readString_key (v X : Bytes) :
    readString (appendStringAux v.length v ++ 34 :: X).length
      (appendStringAux v.length v ++ 34 :: X) = some (toValidUTF8 v, X) :=
  readString_appendString v.length v X _ (Nat.le_refl _) (appendStringAux_length_quote v X)

theorem readMembers_entries (d : Nat) (es : List (Bytes × List Bytes)) :
    ∀ (e : Bytes × List Bytes) (X : Bytes) (n : Nat), es.length < n →
    readMembers (readValue (d + 1)) n (encodeMembers (e :: es) ++ 125 :: X) =
      some (memberValues (e :: es), X) := by
  induction es with
  | nil =>
    intro e X n hn
    obtain ⟨k, rfl⟩ : ∃ k, n = k + 1 := ⟨n - 1, by simp at hn; omega⟩
    have h : encodeMembers [e] ++ 125 :: X =
        34 :: (appendStringAux e.1.length e.1 ++ 34 :: 58 :: (encodeStringSlice e.2 ++ 125 :: X)) := by
      simp [encodeMembers, quoteString]
    rw [h, readMembers_last (readValue (d + 1)) k _ _ _ _ _ (readString_key e.1 _)
      (readValue_stringSlice d e.2 _)]
    rfl
  | cons f fs ih =>
    intro e X n hn
    obtain ⟨k, rfl⟩ : ∃ k, n = k + 1 := ⟨n - 1, by simp at hn; omega⟩
    have h : encodeMembers (e :: f :: fs) ++ 125 :: X =
        34 :: (appendStringAux e.1.length e.1 ++ 34 :: 58 :: (encodeStringSlice e.2 ++
          44 :: (encodeMembers (f :: fs) ++ 125 :: X))) := by
      simp [encodeMembers, quoteString]
    rw [h, readMembers_more (readValue (d + 1)) k _ _ _ _ _ (readString_key e.1 _)
      (readValue_stringSlice d e.2 _)]
    rw [ih f X k (by simp at hn; omega)]
    rfl

theorem encodeMembers_head (e : Bytes × List Bytes) (es : List (Bytes × List Bytes)) :
    ∃ t, encodeMembers (e :: es) = 34 :: t := by
  cases es with
  | nil => exact ⟨_, rfl⟩
  | cons f fs => exact ⟨_, rfl⟩

theorem encodeMembers_length (es : List (Bytes × List Bytes)) :
    es.length ≤ (encodeMembers es).length := by
  induction es with
  | nil => simp [encodeMembers]
  | cons e es ih =>
    cases es with
    | nil => have := quoteString_length e.1; simp [encodeMembers]; omega
    | cons f fs =>
      have := quoteString_length e.1
      simp only [encodeMembers, List.length_append, List.length_cons] at ih ⊢
      omega

theorem readValue_entries (d : Nat) (es : List (Bytes × List Bytes)) (X : Bytes) :
    readValue (d + 2) (123 :: (encodeMembers es ++ 125 :: X)) =
      some (JValue.object (memberValues es), X) := by
  cases es with
  | nil =>
    rw [readValue, skipSpace_cons 123 _ (by decide)]
    simp only [if_true, encodeMembers, List.nil_append, skipSpace_cons 125 X (by decide)]
    rfl
  | cons e es =>
    obtain ⟨t, ht⟩ := encodeMembers_head e es
    have hlen := encodeMembers_length (e :: es)
    rw [readValue, skipSpace_cons 123 _ (by decide)]
    simp only [if_true]
    rw [readMembers_entries d es e X _ (by simp at hlen ⊢; omega)]
    rw [ht]
    simp only [List.cons_append, skipSpace_cons 34 _ (by decide)]
    rfl

theorem readValue_encodeMap (d : Nat) (h : Header) (X : Bytes) :
    readValue (d + 2) (encodeMap h ++ X) =
      some (JValue.object (memberValues (sortEntries h)), X) := by
  have : encodeMap h ++ X = 123 :: (encodeMembers (sortEntries h) ++ 125 :: X) := by
    simp [encodeMap]
  rw [this, readValue_entries]

theorem readValue_encodeByteSlice (d : Nat) (data : Option Bytes) (X : Bytes) :
    readValue d (encodeByteSlice data ++ X) = some (dataValue data, X) := by
  cases data with
  | none => exact readValue_null d X
  | some b =>
    have : encodeByteSlice (some b) ++ X = 34 :: (stdEncode b ++ 34 :: X) := by
      simp [encodeByteSlice]
    rw [this, readValue_plainString d _ X (stdEncode_plain b)]
    rfl

/-- The syntax check accepts a written snapshot and delimits its three members. -/
theorem readJSON_marshalResponse (val : cacheResponse) :
    readJSON (marshalResponse val) = some (JValue.object
      [([83, 116, 97, 116, 117, 115], JValue.number (formatInt val.Status)),
       ([72, 101, 97, 100, 101, 114], JValue.object (memberValues (sortEntries val.Header))),
       ([68, 97, 116, 97], dataValue val.Data)]) := by
  have hk1 : ∀ X : Bytes, readString ([83, 116, 97, 116, 117, 115] ++ 34 :: X).length
      ([83, 116, 97, 116, 117, 115] ++ 34 :: X) = some ([83, 116, 97, 116, 117, 115], X) :=
    fun X => readString_plainBytes _ X _ (by simp [PlainByte]) (by simp)
  have hk2 : ∀ X : Bytes, readString ([72, 101, 97, 100, 101, 114] ++ 34 :: X).length
      ([72, 101, 97, 100, 101, 114] ++ 34 :: X) = some ([72, 101, 97, 100, 101, 114], X) :=
    fun X => readString_plainBytes _ X _ (by simp [PlainByte]) (by simp)
  have hk3 : ∀ X : Bytes, readString ([68, 97, 116, 97] ++ 34 :: X).length
      ([68, 97, 116, 97] ++ 34 :: X) = some ([68, 97, 116, 97], X) :=
    fun X => readString_plainBytes _ X _ (by simp [PlainByte]) (by simp)
  have hshape : marshalResponse val = 123 :: 34 :: ([83, 116, 97, 116, 117, 115] ++ 34 :: 58 ::
      (formatInt val.Status ++ 44 :: 34 :: ([72, 101, 97, 100, 101, 114] ++ 34 :: 58 ::
      (encodeMap val.Header ++ 44 :: 34 :: ([68, 97, 116, 97] ++ 34 :: 58 ::
      (encodeByteSlice val.Data ++ [125])))))) := by
    simp [marshalResponse]
  have hd : maxNestingDepth = 9997 + 2 + 1 := rfl
  rw [readJSON, hshape, hd, readValue, skipSpace_cons 123 _ (by decide)]
  simp only [if_true, skipSpace_cons 34 _ (by decide)]
  generalize hn : (34 :: ([83, 116, 97, 116, 117, 115] ++ 34 :: 58 ::
      (formatInt val.Status ++ 44 :: 34 :: ([72, 101, 97, 100, 101, 114] ++ 34 :: 58 ::
      (encodeMap val.Header ++ 44 :: 34 :: ([68, 97, 116, 97] ++ 34 :: 58 ::
      (encodeByteSlice val.Data ++ [125]))))))).length = n
  obtain ⟨k, rfl⟩ : ∃ k, n = k + 3 := ⟨n - 3, by simp at hn; omega⟩
  rw [readMembers_more (readValue (9997 + 2)) (k + 2) _ _ _ _ _ (hk1 _)
    (readValue_formatInt _ val.Status _)]
  rw [readMembers_more (readValue (9997 + 2)) (k + 1) _ _ _ _ _ (hk2 _)
    (readValue_encodeMap 9997 val.Header _)]
  rw [readMembers_last (readValue (9997 + 2)) k _ _ _ _ _ (hk3 _)
    (readValue_encodeByteSlice _ val.Data _)]
  rfl

/-! ## The snapshot codec -/

theorem decodeStringElems_stringValues (vs : List Bytes) :
    decodeStringElems (stringValues vs) = some (vs.map toValidUTF8) := by
  induction vs with
  | nil => rfl
  | cons v vs ih =>
    have : stringValues (v :: vs) = JValue.string (toValidUTF8 v) :: stringValues vs := rfl
    rw [this, decodeStringElems, ih]
    rfl

theorem decodeHeaderMembers_memberValues (es : List (Bytes × List Bytes)) : ∀ h : Header,
    decodeHeaderMembers h (memberValues es) =
      some (es.foldl (fun acc e => mapAssign acc (toValidUTF8 e.1) (e.2.map toValidUTF8)) h) := by
  induction es with
  | nil => intro h; rfl
  | cons e es ih =>
    intro h
    have : memberValues (e :: es) =
        (toValidUTF8 e.1, JValue.array (stringValues e.2)) :: memberValues es := rfl
    rw [this, decodeHeaderMembers, decodeStringSlice, decodeStringElems_stringValues]
    simp only
    rw [ih]
    rfl

/-- Reading back a written snapshot succeeds and gives the status, the header
coerced to valid UTF-8, and the body. -/
theorem unmarshal_marshal (val : cacheResponse) (h1 : -(2 ^ 63) ≤ val.Status)
    (h2 : val.Status < 2 ^ 63) (hd : ∀ b, val.Data = some b → IsBytes b) :
    unmarshalResponse (marshalResponse val) =
      .ok ⟨val.Status, coerceHeader val.Header, val.Data⟩ := by
  have hf1 : findField [83, 116, 97, 116, 117, 115] = some Field.Status := by decide
  have hf2 : findField [72, 101, 97, 100, 101, 114] = some Field.Header := by decide
  have hf3 : findField [68, 97, 116, 97] = some Field.Data := by decide
  rw [unmarshalResponse, readJSON_marshalResponse]
  simp only [decodeMembers, decodeMember, hf1, hf2, hf3, decodeStatus, decodeHeader,
    parseInt64_formatInt val.Status h1 h2, decodeHeaderMembers_memberValues]
  cases hdata : val.Data with
  | none => rfl
  | some b =>
    simp only [dataValue, decodeData, stdDecode_stdEncode b (hd b hdata)]
    rfl

theorem toValidUTF8Aux_valid (m : Nat) : ∀ s : Bytes, s.length ≤ m → utf8ValidAux m s = true →
    toValidUTF8Aux m s = s := by
  induction m with
  | zero =>
    intro s hs _
    have : s = [] := List.length_eq_zero.mp (Nat.le_zero.mp hs)
    subst this; rfl
  | succ m ih =>
    intro s hs hv
    rcases s with _ | ⟨b, r⟩
    · rfl
    · have hsz := decodeRune_size b r
      rw [utf8ValidAux] at hv
      by_cases hinv : isInvalid (decodeRune (b :: r)) = true
      · rw [if_pos hinv] at hv; exact absurd hv (by simp)
      · rw [if_neg hinv] at hv
        rw [toValidUTF8Aux, if_neg hinv, ih _ (by
          rw [List.length_drop]; simp only [List.length_cons] at hs hsz ⊢; omega) hv,
          List.take_append_drop]

theorem toValidUTF8_valid (s : Bytes) (h : utf8Valid s = true) : toValidUTF8 s = s :=
  toValidUTF8Aux_valid s.length s (Nat.le_refl _) h

theorem map_toValidUTF8_valid (vs : List Bytes) (h : ∀ v ∈ vs, utf8Valid v = true) :
    vs.map toValidUTF8 = vs := by
  induction vs with
  | nil => rfl
  | cons v vs ih =>
    rw [List.map_cons, toValidUTF8_valid v (h v (by simp)), ih (fun w hw => h w (by simp [hw]))]

theorem mapAssign_fresh (h : Header) (k : Bytes) (vs : List Bytes) (hk : k ∉ h.map Prod.fst) :
    mapAssign h k vs = h ++ [(k, vs)] := by
  induction h with
  | nil => rfl
  | cons e es ih =>
    simp only [List.map_cons, List.mem_cons, not_or] at hk
    rw [mapAssign, if_neg (fun heq => hk.1 heq.symm), ih hk.2]
    rfl

theorem foldl_mapAssign_fresh (es : Header) : ∀ acc : Header, NodupKeys (acc ++ es) →
    es.foldl (fun a e => mapAssign a e.1 e.2) acc = acc ++ es := by
  induction es with
  | nil => intro acc _; simp
  | cons e es ih =>
    intro acc hnd
    have hk : e.1 ∉ acc.map Prod.fst := by
      unfold NodupKeys at hnd
      rw [List.map_append, List.map_cons] at hnd
      have := (List.nodup_append.mp hnd).2.2
      intro hmem
      exact this hmem (by simp)
    rw [List.foldl_cons, mapAssign_fresh acc e.1 e.2 hk, ih _ (by simpa using hnd)]
    simp

theorem insertEntry_perm (e : Bytes × List Bytes) (l : Header) :
    List.Perm (insertEntry e l) (e :: l) := by
  induction l with
  | nil => exact List.Perm.refl _
  | cons x xs ih =>
    rw [insertEntry]
    split_ifs
    · exact List.Perm.refl _
    · exact (List.Perm.cons x ih).trans (List.Perm.swap e x xs)

theorem sortEntries_perm (l : Header) : List.Perm (sortEntries l) l := by
  induction l with
  | nil => exact List.Perm.refl _
  | cons e es ih =>
    rw [sortEntries]
    exact (insertEntry_perm e _).trans (List.Perm.cons e ih)

theorem nodupKeys_sortEntries (h : Header) (hn : NodupKeys h) : NodupKeys (sortEntries h) := by
  unfold NodupKeys at *
  exact ((sortEntries_perm h).map Prod.fst).nodup_iff.mpr hn

theorem mapGet_eq_some_iff (h : Header) (hn : NodupKeys h) (k : Bytes) (vs : List Bytes) :
    mapGet h k = some vs ↔ (k, vs) ∈ h := by
  induction h with
  | nil => simp [mapGet]
  | cons e es ih =>
    unfold NodupKeys at hn
    rw [List.map_cons, List.nodup_cons] at hn
    rw [mapGet]
    by_cases hek : e.1 = k
    · rw [if_pos hek]
      constructor
      · intro h; simp only [Option.some.injEq] at h; subst h; subst hek; simp
      · intro h
        rcases List.mem_cons.mp h with h | h
        · rw [← h]
        · exfalso; apply hn.1; rw [hek]; exact List.mem_map.mpr ⟨(k, vs), h, rfl⟩
    · rw [if_neg hek, ih hn.2]
      constructor
      · intro h; exact List.mem_cons_of_mem _ h
      · intro h
        rcases List.mem_cons.mp h with h | h
        · exfalso; apply hek; rw [← h]
        · exact h

/-- Sorting the entries of a map does not change what a lookup finds. -/
theorem mapGet_sortEntries (h : Header) (hn : NodupKeys h) (k : Bytes) :
    mapGet (sortEntries h) k = mapGet h k := by
  apply Option.ext
  intro vs
  simp only [Option.mem_def]
  rw [mapGet_eq_some_iff _ (nodupKeys_sortEntries h hn), mapGet_eq_some_iff _ hn]
  exact (sortEntries_perm h).mem_iff

/-- A header map of valid UTF-8 strings comes back as it was, in the order of its keys. -/
theorem coerceHeader_valid (h : Header) (hv : ValidHeader h) (hn : NodupKeys h) :
    coerceHeader h = sortEntries h := by
  unfold coerceHeader
  have hv2 : ∀ e ∈ sortEntries h, utf8Valid e.1 = true ∧ ∀ v ∈ e.2, utf8Valid v = true :=
    fun e he => hv e ((sortEntries_perm h).mem_iff.mp he)
  have hfold : (sortEntries h).foldl
      (fun (acc : Header) (e : Bytes × List Bytes) =>
        mapAssign acc (toValidUTF8 e.1) (e.2.map toValidUTF8)) [] =
      (sortEntries h).foldl (fun (acc : Header) (e : Bytes × List Bytes) =>
        mapAssign acc e.1 e.2) [] := by
    apply List.foldl_ext
    intro acc e he
    rw [toValidUTF8_valid e.1 (hv2 e he).1, map_toValidUTF8_valid e.2 (hv2 e he).2]
  rw [hfold, foldl_mapAssign_fresh _ [] (by simpa using nodupKeys_sortEntries h hn)]
  rfl

/-! ## The capture wrapper -/

/-- What `cachedWriter.Write` does, case by case. -/
theorem Write_cases (w : cachedWriter) (mc : memCache) (now : Int) (data : Option Bytes) :
    (w.Write mc now data).2.1 = { w with ResponseWriter := (w.ResponseWriter.Write data).2 } ∧
    ((w.ResponseWriter.faults.headD false = true ∨ w.ResponseWriter.status ≠ 200) →
      (∃ e, (w.Write mc now data).1 = .error e) ∧ (w.Write mc now data).2.2 = mc) ∧
    ((w.ResponseWriter.faults.headD false = false ∧ w.ResponseWriter.status = 200) →
      (w.Write mc now data).1 = .ok (data.getD []).length ∧
      (w.Write mc now data).2.2 =
        ⟨mc.cache.Set now w.key
          (.bytes (marshalResponse ⟨200, w.ResponseWriter.header, data⟩)) w.expire⟩) := by
  unfold cachedWriter.Write responseWriter.Write liveWrite cachedWriter.Status
    responseWriter.Status cachedWriter.Header responseWriter.Header
  generalize w.ResponseWriter.faults.headD false = failed
  cases failed
  · by_cases hs : w.ResponseWriter.status = 200
    · simp [hs]
    · simp [hs]
  · simp

/-- What `cachedWriter.WriteString` does, case by case. -/
theorem WriteString_cases (w : cachedWriter) (mc : memCache) (now : Int) (data : Bytes) :
    (w.WriteString mc now data).2.1 =
      { w with ResponseWriter := (w.ResponseWriter.WriteString data).2 } ∧
    ((w.ResponseWriter.faults.headD false = true ∨ w.ResponseWriter.status ≠ 200) →
      (∃ e, (w.WriteString mc now data).1 = .error e) ∧ (w.WriteString mc now data).2.2 = mc) ∧
    ((w.ResponseWriter.faults.headD false = false ∧ w.ResponseWriter.status = 200) →
      (w.WriteString mc now data).1 = .ok data.length ∧
      (w.WriteString mc now data).2.2 =
        setCache mc now w.key
          (marshalResponse ⟨200, w.ResponseWriter.header, some data⟩) w.expire) := by
  unfold cachedWriter.WriteString responseWriter.WriteString liveWrite cachedWriter.Status
    responseWriter.Status cachedWriter.Header responseWriter.Header
  generalize w.ResponseWriter.faults.headD false = failed
  cases failed
  · by_cases hs : w.ResponseWriter.status = 200
    · simp [hs]
    · simp [hs]
  · simp

theorem Write_calls (w : cachedWriter) (mc : memCache) (now : Int) (data : Option Bytes) :
    (w.Write mc now data).2.1.ResponseWriter.calls = w.ResponseWriter.calls ++
      [WriterCall.Write data (w.ResponseWriter.faults.headD false) w.ResponseWriter.status] := by
  rw [(Write_cases w mc now data).1]
  rfl

theorem WriteString_calls (w : cachedWriter) (mc : memCache) (now : Int) (data : Bytes) :
    (w.WriteString mc now data).2.1.ResponseWriter.calls = w.ResponseWriter.calls ++
      [WriterCall.WriteString data (w.ResponseWriter.faults.headD false)
        w.ResponseWriter.status] := by
  rw [(WriteString_cases w mc now data).1]
  rfl

theorem bodyWrites_append (l1 l2 : List WriterCall) :
    bodyWrites (l1 ++ l2) = bodyWrites l1 ++ bodyWrites l2 := by
  unfold bodyWrites; exact List.filter_append _ _

theorem bodyWrites_WriteHeader (code : Int) (l : List WriterCall) :
    bodyWrites (WriterCall.WriteHeader code :: l) = bodyWrites l := by
  simp [bodyWrites]

theorem bodyWrites_Write (data : Option Bytes) (f : Bool) (st : Int) (l : List WriterCall) :
    bodyWrites (WriterCall.Write data f st :: l) = WriterCall.Write data f st :: bodyWrites l := by
  simp [bodyWrites]

theorem bodyWrites_WriteString (data : Bytes) (f : Bool) (st : Int) (l : List WriterCall) :
    bodyWrites (WriterCall.WriteString data f st :: l) =
      WriterCall.WriteString data f st :: bodyWrites l := by
  simp [bodyWrites]

/-- What a handler leaves behind, told by the calls that reached the live writer:
the calls are appended to the record; the key and the time to live of the
wrapper stay; without a body write the store stays as it was; and when the one
body write is a successful `Write` of `data` under status 200, the store is the
one that this call left. -/
theorem runProg_trace (now : Int) (p : Prog) : ∀ s : HandlerState, ∃ suffix : List WriterCall,
    (runProg now p s).Writer.ResponseWriter.calls = s.Writer.ResponseWriter.calls ++ suffix ∧
    (runProg now p s).Writer.key = s.Writer.key ∧
    (runProg now p s).Writer.expire = s.Writer.expire ∧
    (bodyWrites suffix = [] → (runProg now p s).memoryCache = s.memoryCache) ∧
    (∀ data, bodyWrites suffix = [WriterCall.Write (some data) false 200] → ∃ hdr,
      (runProg now p s).memoryCache =
        ⟨s.memoryCache.cache.Set now s.Writer.key
          (.bytes (marshalResponse ⟨200, hdr, some data⟩)) s.Writer.expire⟩) := by
  induction p with
  | done => intro s; exact ⟨[], by simp [runProg], rfl, rfl, fun _ => rfl, fun _ h => by simp [bodyWrites] at h⟩
  | WriteHeader code next ih =>
    intro s
    obtain ⟨suffix, h1, h2, h3, h4, h5⟩ := ih { s with Writer := s.Writer.WriteHeader code }
    refine ⟨WriterCall.WriteHeader code :: suffix, ?_, h2, h3, ?_, ?_⟩
    · rw [runProg, h1]
      simp [cachedWriter.WriteHeader, responseWriter.WriteHeader]
    · intro h; rw [bodyWrites_WriteHeader] at h; exact h4 h
    · intro data h; rw [bodyWrites_WriteHeader] at h; exact h5 data h
  | Status next ih => intro s; exact ih _ s
  | Written next ih => intro s; exact ih _ s
  | Header next ih => intro s; exact ih _ s
  | SetHeader f next ih =>
    intro s
    exact ih { s with Writer := { s.Writer with
      ResponseWriter := { s.Writer.ResponseWriter with header := f s.Writer.ResponseWriter.header } } }
  | Write data next ih =>
    intro s
    obtain ⟨hw, hfail, hok⟩ := Write_cases s.Writer s.memoryCache now data
    obtain ⟨suffix, h1, h2, h3, h4, h5⟩ := ih (s.Writer.Write s.memoryCache now data).1
      { s with Writer := (s.Writer.Write s.memoryCache now data).2.1,
               memoryCache := (s.Writer.Write s.memoryCache now data).2.2 }
    refine ⟨WriterCall.Write data (s.Writer.ResponseWriter.faults.headD false)
      s.Writer.ResponseWriter.status :: suffix, ?_, ?_, ?_, ?_, ?_⟩
    · rw [runProg, h1]
      simp only [Write_calls, List.append_assoc, List.singleton_append]
    · rw [runProg, h2]; simp only [hw]
    · rw [runProg, h3]; simp only [hw]
    · intro h; rw [bodyWrites_Write] at h; exact absurd h (by simp)
    · intro d h
      rw [bodyWrites_Write] at h
      simp only [List.cons.injEq, WriterCall.Write.injEq] at h
      obtain ⟨⟨hd, hf, hs⟩, hrest⟩ := h
      have := h4 hrest
      rw [runProg, this]
      simp only
      rw [(hok ⟨hf, hs⟩).2, hd]
      exact ⟨_, rfl⟩
  | WriteString data next ih =>
    intro s
    obtain ⟨hw, hfail, hok⟩ := WriteString_cases s.Writer s.memoryCache now data
    obtain ⟨suffix, h1, h2, h3, h4, h5⟩ := ih (s.Writer.WriteString s.memoryCache now data).1
      { s with Writer := (s.Writer.WriteString s.memoryCache now data).2.1,
               memoryCache := (s.Writer.WriteString s.memoryCache now data).2.2 }
    refine ⟨WriterCall.WriteString data (s.Writer.ResponseWriter.faults.headD false)
      s.Writer.ResponseWriter.status :: suffix, ?_, ?_, ?_, ?_, ?_⟩
    · rw [runProg, h1]
      simp only [WriteString_calls, List.append_assoc, List.singleton_append]
    · rw [runProg, h2]; simp only [hw]
    · rw [runProg, h3]; simp only [hw]
    · intro h; rw [bodyWrites_WriteString] at h; exact absurd h (by simp)
    · intro d h
      rw [bodyWrites_WriteString] at h
      simp at h
  | Abort next ih => intro s; exact ih { s with aborted := true }

/-! ## The store and the middleware -/

theorem getCache_absent (mc : memCache) (now : Int) (key : Bytes)
    (h : mc.cache.items key = none) : getCache mc now key = .error "gin-cache: invalid cache key" := by
  simp [getCache, Cache.Get, h]

theorem getCache_item (mc : memCache) (now : Int) (key payload : Bytes) (e : Int)
    (h : mc.cache.items key = some ⟨.bytes payload, e⟩) (hlive : ¬ (e > 0 ∧ now > e)) :
    getCache mc now key = unmarshalResponse payload := by
  simp only [getCache, Cache.Get, h, if_neg hlive]

theorem Set_items_self (c : Cache) (now : Int) (k : Bytes) (x : CacheObject) (d : Int) :
    (c.Set now k x d).items k =
      some ⟨x, if timeToLive c d > 0 then now + timeToLive c d else 0⟩ := by
  simp [Cache.Set, timeToLive]

theorem Set_items_other (c : Cache) (now : Int) (k j : Bytes) (x : CacheObject) (d : Int)
    (h : j ≠ k) : (c.Set now k x d).items j = c.items j := by
  simp [Cache.Set, h]

theorem generateKey_key (sha1Sum : Bytes → Bytes) (c : Context) :
    (generateKey sha1Sum c).1 = urlEncode (sha1Sum (c.Request.URL ++ bodyBytes c.Request)) := by
  unfold generateKey bodyBytes
  cases c.Request.Body <;> rfl

theorem generateKey_context (sha1Sum : Bytes → Bytes) (c : Context) :
    (generateKey sha1Sum c).2.Writer = c.Writer ∧ (generateKey sha1Sum c).2.aborted = c.aborted ∧
    (generateKey sha1Sum c).2.Request.URL = c.Request.URL := by
  unfold generateKey
  cases c.Request.Body <;> exact ⟨rfl, rfl, rfl⟩

/-- The outcome of the branch that invokes the handler. -/
theorem middleware_miss (sha1Sum : Bytes → Bytes) (expiration : Int) (handle : HandlerFunc)
    (now : Int) (c : Context) (mc : memCache)
    (h : ∀ r, getCache mc now (generateKey sha1Sum c).1 = .ok r → r.Data = none) :
    CacheMiddleware sha1Sum expiration handle now c mc =
      ⟨{ (generateKey sha1Sum c).2 with
          Writer := (runProg now (handle (generateKey sha1Sum c).2.Request)
            ⟨newCachedWriter expiration (generateKey sha1Sum c).2.Writer (generateKey sha1Sum c).1,
              mc, (generateKey sha1Sum c).2.aborted⟩).Writer.ResponseWriter,
          aborted := (runProg now (handle (generateKey sha1Sum c).2.Request)
            ⟨newCachedWriter expiration (generateKey sha1Sum c).2.Writer (generateKey sha1Sum c).1,
              mc, (generateKey sha1Sum c).2.aborted⟩).aborted },
       if (runProg now (handle (generateKey sha1Sum c).2.Request)
            ⟨newCachedWriter expiration (generateKey sha1Sum c).2.Writer (generateKey sha1Sum c).1,
              mc, (generateKey sha1Sum c).2.aborted⟩).aborted
       then deleteCache (runProg now (handle (generateKey sha1Sum c).2.Request)
            ⟨newCachedWriter expiration (generateKey sha1Sum c).2.Writer (generateKey sha1Sum c).1,
              mc, (generateKey sha1Sum c).2.aborted⟩).memoryCache (generateKey sha1Sum c).1
       else (runProg now (handle (generateKey sha1Sum c).2.Request)
            ⟨newCachedWriter expiration (generateKey sha1Sum c).2.Writer (generateKey sha1Sum c).1,
              mc, (generateKey sha1Sum c).2.aborted⟩).memoryCache, 1⟩ := by
  unfold CacheMiddleware
  cases hg : getCache mc now (generateKey sha1Sum c).1 with
  | error e => simp only [hg]
  | ok r => simp only [hg, h r hg]

/-- The live writer after the replay of the snapshot `r` with body `data`:
`WriteHeader`, the header loop, `Write`. -/
theorem middleware_hit (sha1Sum : Bytes → Bytes) (expiration : Int) (handle : HandlerFunc)
    (now : Int) (c : Context) (mc : memCache) (r : cacheResponse) (data : Bytes)
    (h : getCache mc now (generateKey sha1Sum c).1 = .ok r) (hd : r.Data = some data) :
    (CacheMiddleware sha1Sum expiration handle now c mc).handlerCalls = 0 ∧
    (CacheMiddleware sha1Sum expiration handle now c mc).c.Writer =
      (responseWriter.Write
        { c.Writer.WriteHeader r.Status with
          header := replayHeader r.Header (c.Writer.WriteHeader r.Status).header }
        (some data)).2 ∧
    (CacheMiddleware sha1Sum expiration handle now c mc).c.aborted = c.aborted ∧
    (CacheMiddleware sha1Sum expiration handle now c mc).memoryCache =
      if c.Writer.faults.headD false = true then deleteCache mc (generateKey sha1Sum c).1
      else mc := by
  obtain ⟨hw, ha, _⟩ := generateKey_context sha1Sum c
  unfold CacheMiddleware
  simp only [h, hd, hw, ha]
  refine ⟨trivial, trivial, trivial, ?_⟩
  unfold responseWriter.Write liveWrite responseWriter.WriteHeader
  simp only
  generalize c.Writer.faults.headD false = failed
  cases failed <;> rfl

/-! ## The claims -/

theorem delivered_append (l1 l2 : List WriterCall) :
    delivered (l1 ++ l2) = delivered l1 ++ delivered l2 := by
  induction l1 with
  | nil => rfl
  | cons c t ih =>
    cases c with
    | WriteHeader code => simpa [delivered] using ih
    | Write data f st => cases f <;> simp [delivered, ih]
    | WriteString data f st => cases f <;> simp [delivered, ih]

/-- A lookup at `now` finds the snapshot that a successful `Write` under status
200 stored at `t`, as long as its time to live has not elapsed. -/
theorem getCache_after_Set (c : Cache) (t now : Int) (key : Bytes) (hdr : Header)
    (data : Option Bytes) (expire : Int) (hd : ∀ b, data = some b → IsBytes b)
    (httl : 0 < timeToLive c expire → now ≤ t + timeToLive c expire) :
    getCache ⟨c.Set t key (.bytes (marshalResponse ⟨200, hdr, data⟩)) expire⟩ now key =
      .ok ⟨200, coerceHeader hdr, data⟩ := by
  have hlive : ¬ ((if timeToLive c expire > 0 then t + timeToLive c expire else 0) > 0 ∧
      now > (if timeToLive c expire > 0 then t + timeToLive c expire else 0)) := by
    by_cases h : 0 < timeToLive c expire
    · rw [if_pos h]; have := httl h; omega
    · rw [if_neg h]; omega
  rw [getCache_item ⟨c.Set t key (.bytes (marshalResponse ⟨200, hdr, data⟩)) expire⟩ now key
    (marshalResponse ⟨200, hdr, data⟩) _ (Set_items_self c t key _ expire) hlive]
  exact unmarshal_marshal ⟨200, hdr, data⟩ (show (-(2 ^ 63) : Int) ≤ 200 by norm_num)
    (show (200 : Int) < 2 ^ 63 by norm_num) hd

/-- C1 (cache-then-hit): a request whose key has no entry in the store and a
handler whose only body write is one successful `Write` of the non-empty
`data` under status 200, without abort; then an identical request before the
time to live has elapsed. The handler is invoked once in the two runs together,
and the second run sends the live writer `WriteHeader(200)` and `Write(data)`,
the bytes the handler wrote, under status 200: the client receives `data`
unless the connection fails the write. -/
theorem cache_then_hit (sha1Sum : Bytes → Bytes) (expiration : Int) (handle : HandlerFunc)
    (now1 now2 : Int) (c1 c2 : Context) (mc : memCache) (data : Bytes)
    (hfresh : Absent mc (generateKey sha1Sum c1).1)
    (hne : data ≠ []) (hbytes : IsBytes data)
    (hwrite : bodyWrites (CacheMiddleware sha1Sum expiration handle now1 c1 mc).c.Writer.calls =
      bodyWrites c1.Writer.calls ++ [WriterCall.Write (some data) false 200])
    (hnoabort : (CacheMiddleware sha1Sum expiration handle now1 c1 mc).c.aborted = false)
    (hsame : c2.Request = c1.Request)
    (httl : 0 < timeToLive mc.cache expiration →
      now2 ≤ now1 + timeToLive mc.cache expiration) :
    (CacheMiddleware sha1Sum expiration handle now1 c1 mc).handlerCalls +
      (CacheMiddleware sha1Sum expiration handle now2 c2
        (CacheMiddleware sha1Sum expiration handle now1 c1 mc).memoryCache).handlerCalls = 1 ∧
    (CacheMiddleware sha1Sum expiration handle now2 c2
        (CacheMiddleware sha1Sum expiration handle now1 c1 mc).memoryCache).c.Writer.calls =
      c2.Writer.calls ++ [WriterCall.WriteHeader 200,
        WriterCall.Write (some data) (c2.Writer.faults.headD false) 200] ∧
    (CacheMiddleware sha1Sum expiration handle now2 c2
        (CacheMiddleware sha1Sum expiration handle now1 c1 mc).memoryCache).c.Writer.status = 200 ∧
    (c2.Writer.faults.headD false = false →
      delivered (CacheMiddleware sha1Sum expiration handle now2 c2
        (CacheMiddleware sha1Sum expiration handle now1 c1 mc).memoryCache).c.Writer.calls =
        delivered c2.Writer.calls ++ data) := by
  have _ := hne
  have hmiss : ∀ r, getCache mc now1 (generateKey sha1Sum c1).1 = .ok r → r.Data = none := by
    intro r hr
    rw [getCache_absent mc now1 _ hfresh] at hr
    exact absurd hr (by simp)
  obtain ⟨hgw, hga, _⟩ := generateKey_context sha1Sum c1
  have hkey : (generateKey sha1Sum c2).1 = (generateKey sha1Sum c1).1 := by
    rw [generateKey_key, generateKey_key, hsame]
  obtain ⟨suffix, ht1, ht2, ht3, ht4, ht5⟩ := runProg_trace now1
    (handle (generateKey sha1Sum c1).2.Request)
    ⟨newCachedWriter expiration (generateKey sha1Sum c1).2.Writer (generateKey sha1Sum c1).1,
      mc, (generateKey sha1Sum c1).2.aborted⟩
  rw [middleware_miss sha1Sum expiration handle now1 c1 mc hmiss] at hwrite hnoabort ⊢
  simp only at hwrite hnoabort ht1 ht5 ⊢
  rw [ht1] at hwrite
  simp only [newCachedWriter, hgw, bodyWrites_append] at hwrite
  have hsuf := List.append_cancel_left hwrite
  obtain ⟨hdr, hstore⟩ := ht5 data hsuf
  rw [hnoabort, hstore]
  simp only [Bool.false_eq_true, if_false, newCachedWriter]
  have hget := getCache_after_Set mc.cache now1 now2 (generateKey sha1Sum c1).1 hdr (some data)
    expiration (fun b hb => by rw [← Option.some.inj hb]; exact hbytes) httl
  rw [← hkey] at hget
  obtain ⟨hc, hw, _, _⟩ := middleware_hit sha1Sum expiration handle now2 c2 _ _ data hget rfl
  rw [hkey] at hc hw
  have hcalls : (responseWriter.Write
      { c2.Writer.WriteHeader 200 with
        header := replayHeader (coerceHeader hdr) (c2.Writer.WriteHeader 200).header }
      (some data)).2.calls = c2.Writer.calls ++ [WriterCall.WriteHeader 200,
        WriterCall.Write (some data) (c2.Writer.faults.headD false) 200] := by
    simp [responseWriter.Write, liveWrite, responseWriter.WriteHeader]
  refine ⟨by rw [hc], ?_, ?_, ?_⟩
  · rw [hw]; exact hcalls
  · rw [hw]; simp [responseWriter.Write, liveWrite, responseWriter.WriteHeader]
  · intro hf
    rw [hw, hcalls, hf, delivered_append]
    simp [delivered]

set_option maxRecDepth 1000000 in
/-- C1 at a concrete input: `GET /a`, a handler writing `hi`, a time to live of
1000 ns, the second request 1000 ns after the first. -/
theorem cache_then_hit_witness :
    (CacheMiddleware sha1.Sum 1000 hiHandler 0 ctxA memoryCacheInit).handlerCalls +
      (CacheMiddleware sha1.Sum 1000 hiHandler 1000 ctxA
        (CacheMiddleware sha1.Sum 1000 hiHandler 0 ctxA memoryCacheInit).memoryCache).handlerCalls
        = 1 ∧
    (CacheMiddleware sha1.Sum 1000 hiHandler 1000 ctxA
        (CacheMiddleware sha1.Sum 1000 hiHandler 0 ctxA memoryCacheInit).memoryCache).c.Writer.calls
      = [WriterCall.WriteHeader 200, WriterCall.Write (some [104, 105]) false 200] :=
  have h := cache_then_hit sha1.Sum 1000 hiHandler 0 1000 ctxA ctxA memoryCacheInit [104, 105]
    rfl (by decide) (by decide) (by decide) (by decide) rfl (by decide)
  ⟨h.1, h.2.1⟩

/-- C5 (uncacheable writes are delivered but not committed): every call of
`Write` or `WriteString` first passes its data unchanged to the live writer,
which records the call with that data; and when the forwarded write fails, or
succeeds while the status is not 200, the call returns an error and the store
is exactly as before. -/
theorem uncacheable_write_not_committed (w : cachedWriter) (mc : memCache) (now : Int)
    (data : Option Bytes) (text : Bytes) :
    ((w.Write mc now data).2.1.ResponseWriter = (w.ResponseWriter.Write data).2 ∧
      (w.Write mc now data).2.1.ResponseWriter.calls = w.ResponseWriter.calls ++
        [WriterCall.Write data (w.ResponseWriter.faults.headD false) w.ResponseWriter.status]) ∧
    ((w.WriteString mc now text).2.1.ResponseWriter = (w.ResponseWriter.WriteString text).2 ∧
      (w.WriteString mc now text).2.1.ResponseWriter.calls = w.ResponseWriter.calls ++
        [WriterCall.WriteString text (w.ResponseWriter.faults.headD false)
          w.ResponseWriter.status]) ∧
    ((w.ResponseWriter.faults.headD false = true ∨ w.ResponseWriter.status ≠ 200) →
      ((∃ e, (w.Write mc now data).1 = .error e) ∧ (w.Write mc now data).2.2 = mc) ∧
      ((∃ e, (w.WriteString mc now text).1 = .error e) ∧
        (w.WriteString mc now text).2.2 = mc)) := by
  obtain ⟨hw, hfail, _⟩ := Write_cases w mc now data
  obtain ⟨hs, hsfail, _⟩ := WriteString_cases w mc now text
  exact ⟨⟨by rw [hw], Write_calls w mc now data⟩,
    ⟨by rw [hs], WriteString_calls w mc now text⟩, fun h => ⟨hfail h, hsfail h⟩⟩

/-- C5 at a concrete input: `Write("hi")` and `WriteString("hi")` on a wrapper
over a live writer with status 404 return an error and leave the store as it
was, and the live writer has received `hi`. -/
theorem uncacheable_write_not_committed_witness :
    ((∃ e, ((newCachedWriter 1000 { freshWriter [] with status := 404 } [107]).Write
        memoryCacheInit 0 (some [104, 105])).1 = .error e) ∧
      ((newCachedWriter 1000 { freshWriter [] with status := 404 } [107]).Write
        memoryCacheInit 0 (some [104, 105])).2.2 = memoryCacheInit) ∧
    ((∃ e, ((newCachedWriter 1000 { freshWriter [] with status := 404 } [107]).WriteString
        memoryCacheInit 0 [104, 105]).1 = .error e) ∧
      ((newCachedWriter 1000 { freshWriter [] with status := 404 } [107]).WriteString
        memoryCacheInit 0 [104, 105]).2.2 = memoryCacheInit) ∧
    ((newCachedWriter 1000 { freshWriter [] with status := 404 } [107]).Write
        memoryCacheInit 0 (some [104, 105])).2.1.ResponseWriter.calls =
      [WriterCall.Write (some [104, 105]) false 404] :=
  have h := uncacheable_write_not_committed
    (newCachedWriter 1000 { freshWriter [] with status := 404 } [107]) memoryCacheInit 0
    (some [104, 105]) [104, 105]
  ⟨(h.2.2 (Or.inr (by decide))).1, (h.2.2 (Or.inr (by decide))).2, h.1.2⟩

/-- A JSON text that starts with a quote is not read as an object or as `null`. -/
theorem unmarshalResponse_string (r : Bytes) :
    ∃ e, unmarshalResponse (34 :: r) = .error e := by
  have hd : maxNestingDepth = 9999 + 1 := rfl
  unfold unmarshalResponse readJSON
  rw [hd, readValue_scalar _ 34 r (by decide) (by decide) (by decide), readScalar_string]
  cases readString r.length r with
  | none => exact ⟨_, rfl⟩
  | some p =>
    simp only [Option.map_some']
    split_ifs
    · exact ⟨_, rfl⟩
    · exact ⟨_, rfl⟩

theorem getCache_string_item (mc : memCache) (now : Int) (key r : Bytes) (e : Int)
    (h : mc.cache.items key = some ⟨.bytes (34 :: r), e⟩) :
    ∃ err, getCache mc now key = .error err := by
  unfold getCache Cache.Get
  rw [h]
  simp only
  by_cases hx : e > 0 ∧ now > e
  · rw [if_pos hx]; exact ⟨_, rfl⟩
  · rw [if_neg hx]; exact unmarshalResponse_string r

/-- C2, what the code does: after a successful `WriteString` under status 200
the store holds, under the key of the wrapper, the JSON string of the base64
text of the snapshot (`setCache` marshals the marshalled snapshot once more),
and `getCache` on that key fails. -/
theorem WriteString_snapshot_unreadable (w : cachedWriter) (mc : memCache) (now : Int)
    (data : Bytes) (hok : w.ResponseWriter.faults.headD false = false)
    (h200 : w.ResponseWriter.status = 200) :
    (w.WriteString mc now data).1 = .ok data.length ∧
    ((w.WriteString mc now data).2.2.cache.items w.key).map Item.Object =
      some (.bytes (marshalBytes (marshalResponse ⟨200, w.ResponseWriter.header, some data⟩))) ∧
    ∃ e, getCache (w.WriteString mc now data).2.2 now w.key = .error e := by
  obtain ⟨_, _, hcase⟩ := WriteString_cases w mc now data
  obtain ⟨hres, hstore⟩ := hcase ⟨hok, h200⟩
  refine ⟨hres, ?_, ?_⟩
  · rw [hstore, setCache]
    simp only [Set_items_self, Option.map_some']
  · rw [hstore, setCache]
    exact getCache_string_item _ now w.key _ _ (Set_items_self mc.cache now w.key _ w.expire)

/-- C2 at a concrete input: `WriteString("hi")` on a fresh wrapper; a `Write` of
the same bytes leaves a snapshot that `getCache` returns. -/
theorem WriteString_snapshot_unreadable_witness :
    (∃ e, getCache ((newCachedWriter 1000 (freshWriter []) [107]).WriteString
      memoryCacheInit 0 [104, 105]).2.2 0 [107] = .error e) ∧
    getCache ((newCachedWriter 1000 (freshWriter []) [107]).Write
      memoryCacheInit 0 (some [104, 105])).2.2 0 [107] = .ok ⟨200, [], some [104, 105]⟩ :=
  ⟨(WriteString_snapshot_unreadable (newCachedWriter 1000 (freshWriter []) [107])
    memoryCacheInit 0 [104, 105] rfl rfl).2.2, rfl⟩

/-- C6 (abort deletes): when the request misses the cache and the handler ends
with the request marked as aborted, the store holds no entry under the key of
the request after the middleware returns, whatever the handler wrote; the
handler was invoked, and it is invoked again for an identical request at any
later time. -/
theorem abort_deletes (sha1Sum : Bytes → Bytes) (expiration : Int) (handle : HandlerFunc)
    (now : Int) (c : Context) (mc : memCache)
    (hmiss : ∀ r, getCache mc now (generateKey sha1Sum c).1 = .ok r → r.Data = none)
    (habort : (CacheMiddleware sha1Sum expiration handle now c mc).c.aborted = true) :
    Absent (CacheMiddleware sha1Sum expiration handle now c mc).memoryCache
      (generateKey sha1Sum c).1 ∧
    (CacheMiddleware sha1Sum expiration handle now c mc).handlerCalls = 1 ∧
    ∀ (now2 : Int) (c2 : Context), c2.Request = c.Request →
      (CacheMiddleware sha1Sum expiration handle now2 c2
        (CacheMiddleware sha1Sum expiration handle now c mc).memoryCache).handlerCalls = 1 := by
  rw [middleware_miss sha1Sum expiration handle now c mc hmiss] at habort ⊢
  simp only at habort ⊢
  rw [habort]
  simp only [if_true]
  have habs : Absent (deleteCache (runProg now (handle (generateKey sha1Sum c).2.Request)
      ⟨newCachedWriter expiration (generateKey sha1Sum c).2.Writer (generateKey sha1Sum c).1,
        mc, (generateKey sha1Sum c).2.aborted⟩).memoryCache (generateKey sha1Sum c).1)
      (generateKey sha1Sum c).1 := by
    simp [Absent, deleteCache, Cache.Delete]
  refine ⟨habs, trivial, ?_⟩
  intro now2 c2 hsame
  have hkey : (generateKey sha1Sum c2).1 = (generateKey sha1Sum c).1 := by
    rw [generateKey_key, generateKey_key, hsame]
  rw [middleware_miss sha1Sum expiration handle now2 c2 _ (by
    intro r hr
    rw [hkey, getCache_absent _ now2 _ habs] at hr
    exact absurd hr (by simp))]

set_option maxRecDepth 1000000 in
/-- C6 at a concrete input: `GET /a` with a handler that writes `hi` under
status 200 and then aborts. -/
theorem abort_deletes_witness :
    Absent (CacheMiddleware sha1.Sum 1000 abortHandler 0 ctxA memoryCacheInit).memoryCache
      (generateKey sha1.Sum ctxA).1 ∧
    (CacheMiddleware sha1.Sum 1000 abortHandler 0 ctxA memoryCacheInit).c.Writer.calls =
      [WriterCall.Write (some [104, 105]) false 200] ∧
    (CacheMiddleware sha1.Sum 1000 abortHandler 1 ctxA
      (CacheMiddleware sha1.Sum 1000 abortHandler 0 ctxA memoryCacheInit).memoryCache).handlerCalls
        = 1 :=
  have h := abort_deletes sha1.Sum 1000 abortHandler 0 ctxA memoryCacheInit
    (fun r hr => by simp [getCache, Cache.Get, memoryCacheInit, cacheNew] at hr) (by decide)
  ⟨h.1, by decide, h.2.2 1 ctxA rfl⟩

/-- C7 (no body consumption): `generateKey` leaves the URL as it was; a nil
body stays nil; and after it, reading the body to its end yields the bytes the
body held, without error. -/
theorem generateKey_restores_body (sha1Sum : Bytes → Bytes) (c : Context) :
    (generateKey sha1Sum c).2.Request.URL = c.Request.URL ∧
    (c.Request.Body = none → (generateKey sha1Sum c).2.Request.Body = none) ∧
    (∀ b : Bytes, c.Request.Body = some ⟨b, false⟩ →
      (generateKey sha1Sum c).2.Request.Body.map ReadAll = some (b, false)) ∧
    (∀ body : Body, c.Request.Body = some body →
      (generateKey sha1Sum c).2.Request.Body.map ReadAll = some (body.data, false)) := by
  refine ⟨(generateKey_context sha1Sum c).2.2, ?_, ?_, ?_⟩
  · intro h; unfold generateKey; simp only [h]
  · intro b h; unfold generateKey; simp only [h]; rfl
  · intro body h; unfold generateKey; simp only [h]; rfl

/-- C4 as the code has it: the key is a function of the bytes of the URL
followed by the bytes of the body, so identical URL and body give the identical
key; and with a digest that is collision-free on byte strings, two requests have
the same key exactly when these concatenations are equal. So requests that
differ only in the body, or only in the URL, have different keys. -/
theorem fingerprint_by_concatenation (sha1Sum : Bytes → Bytes) (c1 c2 : Context) :
    ((generateKey sha1Sum c1).1 =
      urlEncode (sha1Sum (c1.Request.URL ++ bodyBytes c1.Request))) ∧
    (c1.Request.URL = c2.Request.URL → bodyBytes c1.Request = bodyBytes c2.Request →
      (generateKey sha1Sum c1).1 = (generateKey sha1Sum c2).1) ∧
    ((∀ x y, IsBytes x → IsBytes y → sha1Sum x = sha1Sum y → x = y) →
      (∀ x, IsBytes x → IsBytes (sha1Sum x)) →
      IsBytes (c1.Request.URL ++ bodyBytes c1.Request) →
      IsBytes (c2.Request.URL ++ bodyBytes c2.Request) →
      (((generateKey sha1Sum c1).1 = (generateKey sha1Sum c2).1 ↔
        c1.Request.URL ++ bodyBytes c1.Request = c2.Request.URL ++ bodyBytes c2.Request) ∧
       (c1.Request.URL = c2.Request.URL → bodyBytes c1.Request ≠ bodyBytes c2.Request →
        (generateKey sha1Sum c1).1 ≠ (generateKey sha1Sum c2).1) ∧
       (bodyBytes c1.Request = bodyBytes c2.Request → c1.Request.URL ≠ c2.Request.URL →
        (generateKey sha1Sum c1).1 ≠ (generateKey sha1Sum c2).1))) := by
  refine ⟨generateKey_key sha1Sum c1, ?_, ?_⟩
  · intro hu hb; rw [generateKey_key, generateKey_key, hu, hb]
  · intro hinj hout h1 h2
    have hiff : (generateKey sha1Sum c1).1 = (generateKey sha1Sum c2).1 ↔
        c1.Request.URL ++ bodyBytes c1.Request = c2.Request.URL ++ bodyBytes c2.Request := by
      rw [generateKey_key, generateKey_key]
      constructor
      · intro h
        exact hinj _ _ h1 h2 (urlEncode_injective _ _ (hout _ h1) (hout _ h2) h)
      · intro h; rw [h]
    refine ⟨hiff, ?_, ?_⟩
    · intro hu hb hk
      rw [hiff, hu] at hk
      exact hb (List.append_cancel_left hk)
    · intro hb hu hk
      rw [hiff, hb] at hk
      exact hu (List.append_cancel_right hk)

/-- C4 as amended, at a concrete input: with the identity as digest, `/a` with
body `b` and `/a` without body have different keys. -/
theorem fingerprint_by_concatenation_witness :
    (generateKey id ctxABody).1 ≠ (generateKey id ctxA).1 :=
  ((fingerprint_by_concatenation id ctxABody ctxA).2.2 (fun _ _ _ _ h => h) (fun _ h => h)
    (by decide) (by decide)).2.1 rfl (by decide)

/-- C4 as stated fails: the requests `/a` with body `b` and `/ab` without body
differ in URL and in body, and have the same key whatever the digest is. -/
theorem fingerprint_counterexample :
    ctxABody.Request.URL ≠ ctxAB.Request.URL ∧
    bodyBytes ctxABody.Request ≠ bodyBytes ctxAB.Request ∧
    ∀ sha1Sum : Bytes → Bytes, (generateKey sha1Sum ctxABody).1 = (generateKey sha1Sum ctxAB).1 :=
  ⟨by decide, by decide, fun _ => rfl⟩

/-- The lookup fails exactly when the entry is absent, expired or undecodable. -/
theorem getCache_error_iff (mc : memCache) (now : Int) (key : Bytes) :
    (∃ e, getCache mc now key = .error e) ↔
      Absent mc key ∨ Expired mc now key ∨ Undecodable mc now key := by
  unfold Absent Expired Undecodable getCache Cache.Get
  cases hitem : mc.cache.items key with
  | none => simp
  | some item =>
    by_cases hx : item.Expiration > 0 ∧ now > item.Expiration
    · simp only [if_pos hx]
      constructor
      · intro _; exact Or.inr (Or.inl ⟨item, rfl, hx.1, hx.2⟩)
      · intro _; exact ⟨_, rfl⟩
    · simp only [if_neg hx]
      constructor
      · intro h
        refine Or.inr (Or.inr ⟨item, rfl, hx, ?_⟩)
        cases hobj : item.Object with
        | bytes r => rw [hobj] at h; exact h
        | other => trivial
      · rintro (h | ⟨it, hit, h1, h2⟩ | ⟨it, hit, _, h3⟩)
        · exact absurd h (by simp)
        · simp only [Option.some.injEq] at hit; subst hit; exact absurd ⟨h1, h2⟩ hx
        · simp only [Option.some.injEq] at hit; subst hit
          cases hobj : item.Object with
          | bytes r => rw [hobj] at h3; exact h3
          | other => exact ⟨_, rfl⟩

/-- C9 as the code has it: the middleware invokes the handler exactly when the
entry of the key is absent, expired, undecodable, or decodes to a snapshot
whose `Data` is nil; it invokes it at most once; and when `getCache` returns a
snapshot with `Data` that is not nil, it does not invoke the handler and the
live writer is the one the replay leaves (`WriteHeader`, header loop, `Write`). -/
theorem lookup_decision (sha1Sum : Bytes → Bytes) (expiration : Int) (handle : HandlerFunc)
    (now : Int) (c : Context) (mc : memCache) :
    ((CacheMiddleware sha1Sum expiration handle now c mc).handlerCalls = 1 ↔
      Absent mc (generateKey sha1Sum c).1 ∨ Expired mc now (generateKey sha1Sum c).1 ∨
      Undecodable mc now (generateKey sha1Sum c).1 ∨ NilData mc now (generateKey sha1Sum c).1) ∧
    ((CacheMiddleware sha1Sum expiration handle now c mc).handlerCalls = 0 ∨
      (CacheMiddleware sha1Sum expiration handle now c mc).handlerCalls = 1) ∧
    (∀ r data, getCache mc now (generateKey sha1Sum c).1 = .ok r → r.Data = some data →
      (CacheMiddleware sha1Sum expiration handle now c mc).handlerCalls = 0 ∧
      (CacheMiddleware sha1Sum expiration handle now c mc).c.Writer =
        (responseWriter.Write
          { c.Writer.WriteHeader r.Status with
            header := replayHeader r.Header (c.Writer.WriteHeader r.Status).header }
          (some data)).2) := by
  have herr := getCache_error_iff mc now (generateKey sha1Sum c).1
  have hhit : ∀ r data, getCache mc now (generateKey sha1Sum c).1 = .ok r → r.Data = some data →
      (CacheMiddleware sha1Sum expiration handle now c mc).handlerCalls = 0 ∧
      (CacheMiddleware sha1Sum expiration handle now c mc).c.Writer =
        (responseWriter.Write
          { c.Writer.WriteHeader r.Status with
            header := replayHeader r.Header (c.Writer.WriteHeader r.Status).header }
          (some data)).2 := by
    intro r data hr hd
    obtain ⟨h1, h2, _, _⟩ := middleware_hit sha1Sum expiration handle now c mc r data hr hd
    exact ⟨h1, h2⟩
  cases hg : getCache mc now (generateKey sha1Sum c).1 with
  | error e =>
    have hmiss : ∀ r, getCache mc now (generateKey sha1Sum c).1 = .ok r → r.Data = none := by
      intro r hr; rw [hg] at hr; exact absurd hr (by simp)
    have hcalls : (CacheMiddleware sha1Sum expiration handle now c mc).handlerCalls = 1 := by
      rw [middleware_miss sha1Sum expiration handle now c mc hmiss]
    refine ⟨⟨fun _ => ?_, fun _ => hcalls⟩, Or.inr hcalls, fun r data hr => ?_⟩
    · rcases herr.mp ⟨e, hg⟩ with h | h | h
      · exact Or.inl h
      · exact Or.inr (Or.inl h)
      · exact Or.inr (Or.inr (Or.inl h))
    · exact absurd hr (by simp)
  | ok r =>
    have hnoerr : ¬ (Absent mc (generateKey sha1Sum c).1 ∨ Expired mc now (generateKey sha1Sum c).1
        ∨ Undecodable mc now (generateKey sha1Sum c).1) := by
      intro h
      obtain ⟨e, he⟩ := herr.mpr h
      rw [hg] at he
      exact absurd he (by simp)
    cases hd : r.Data with
    | none =>
      have hmiss : ∀ r', getCache mc now (generateKey sha1Sum c).1 = .ok r' → r'.Data = none := by
        intro r' hr'; rw [hg] at hr'; rw [← Except.ok.inj hr']; exact hd
      have hcalls : (CacheMiddleware sha1Sum expiration handle now c mc).handlerCalls = 1 := by
        rw [middleware_miss sha1Sum expiration handle now c mc hmiss]
      refine ⟨⟨fun _ => ?_, fun _ => hcalls⟩, Or.inr hcalls, fun r' data hr' hd' => ?_⟩
      · exact Or.inr (Or.inr (Or.inr ⟨r, hg, hd⟩))
      · rw [← Except.ok.inj hr', hd] at hd'; exact absurd hd' (by simp)
    | some data =>
      obtain ⟨h0, _⟩ := hhit r data hg hd
      refine ⟨⟨fun h1 => ?_, fun h => ?_⟩, Or.inl h0, fun r' data' hr' hd' => ?_⟩
      · rw [h0] at h1; exact absurd h1 (by decide)
      · exfalso
        rcases h with h | h | h | ⟨r', hr', hd'⟩
        · exact hnoerr (Or.inl h)
        · exact hnoerr (Or.inr (Or.inl h))
        · exact hnoerr (Or.inr (Or.inr h))
        · rw [hg] at hr'; rw [← Except.ok.inj hr', hd] at hd'; exact absurd hd' (by simp)
      · have hrr : r = r' := Except.ok.inj hr'
        subst hrr
        exact hhit r data' hg hd'

set_option maxRecDepth 1000000 in
/-- C9 as stated fails: after a handler called `Write(nil)` under status 200 the
store holds a decodable, unexpired snapshot under the key (`getCache` returns
it), and the middleware still invokes the handler, because the `Data` of the
snapshot is nil. -/
theorem lookup_counterexample :
    getCache nilStore 0 (generateKey sha1.Sum ctxA).1 = .ok ⟨200, [], none⟩ ∧
    ¬ (Absent nilStore (generateKey sha1.Sum ctxA).1 ∨
       Expired nilStore 0 (generateKey sha1.Sum ctxA).1 ∨
       Undecodable nilStore 0 (generateKey sha1.Sum ctxA).1) ∧
    (CacheMiddleware sha1.Sum 1000 hiHandler 0 ctxA nilStore).handlerCalls = 1 := by
  have hg : getCache nilStore 0 (generateKey sha1.Sum ctxA).1 = .ok ⟨200, [], none⟩ := rfl
  refine ⟨hg, ?_, by decide⟩
  intro h
  obtain ⟨e, he⟩ := (getCache_error_iff nilStore 0 (generateKey sha1.Sum ctxA).1).mpr h
  rw [hg] at he
  exact absurd he (by simp)

theorem mapGet_mapAssign (h : Header) (k j : Bytes) (vs : List Bytes) :
    mapGet (mapAssign h k vs) j = if j = k then some vs else mapGet h j := by
  induction h with
  | nil =>
    simp only [mapAssign, mapGet]
    by_cases hjk : j = k
    · rw [if_pos hjk.symm, if_pos hjk]
    · rw [if_neg (fun h => hjk h.symm), if_neg hjk]
  | cons e es ih =>
    rw [mapAssign]
    by_cases hek : e.1 = k
    · rw [if_pos hek]
      simp only [mapGet]
      by_cases hjk : j = k
      · rw [if_pos hjk.symm, if_pos hjk]
      · rw [if_neg (fun h => hjk h.symm), if_neg hjk, if_neg (fun h => hjk (by rw [← h, hek]))]
    · rw [if_neg hek]
      simp only [mapGet]
      by_cases hej : e.1 = j
      · rw [if_pos hej, if_neg (fun h => hek (by rw [hej, h])), if_pos hej]
      · rw [if_neg hej, ih, if_neg hej]

/-- What the header loop of the replay can produce: every entry of the live
header after the loop is an entry it had before, or carries exactly one value. -/
theorem replayHeader_single_values (stored live : Header) (k : Bytes) (vs : List Bytes)
    (h : mapGet (replayHeader stored live) k = some vs) :
    mapGet live k = some vs ∨ vs.length = 1 := by
  have inner : ∀ (vals : List Bytes) (name : Bytes) (h0 : Header),
      (∀ ws, mapGet h0 k = some ws → mapGet live k = some ws ∨ ws.length = 1) →
      ∀ ws, mapGet (vals.foldl (fun h1 v => headerSet h1 name v) h0) k = some ws →
        mapGet live k = some ws ∨ ws.length = 1 := by
    intro vals
    induction vals with
    | nil => intro name h0 hp ws hws; exact hp ws hws
    | cons v vals ih =>
      intro name h0 hp ws hws
      rw [List.foldl_cons] at hws
      refine ih name (headerSet h0 name v) ?_ ws hws
      intro us hus
      rw [headerSet, mapGet_mapAssign] at hus
      by_cases hk : k = CanonicalMIMEHeaderKey name
      · rw [if_pos hk] at hus
        right
        rw [← Option.some.inj hus]
        rfl
      · rw [if_neg hk] at hus
        exact hp us hus
  have outer : ∀ (st : Header) (h0 : Header),
      (∀ ws, mapGet h0 k = some ws → mapGet live k = some ws ∨ ws.length = 1) →
      ∀ ws, mapGet (replayHeader st h0) k = some ws →
        mapGet live k = some ws ∨ ws.length = 1 := by
    intro st
    induction st with
    | nil => intro h0 hp ws hws; exact hp ws hws
    | cons e es ih =>
      intro h0 hp ws hws
      unfold replayHeader at hws ih
      rw [List.foldl_cons] at hws
      exact ih _ (inner e.2 e.1 h0 hp) ws hws
  exact outer stored live (fun ws hws => Or.inl hws) vs h

set_option maxRecDepth 1000000 in
/-- C3, what the code does at a failing input: the stored snapshot carries
`Set-Cookie` with the two values `a=1` and `b=2`; after the replay (no handler
call) the live writer's header maps `Set-Cookie` to the single value `b=2`,
because the loop calls `Set` for each value. -/
theorem replay_keeps_last_header_value :
    getCache cookieStore 0 (generateKey sha1.Sum ctxA).1 =
      .ok ⟨200, [([83, 101, 116, 45, 67, 111, 111, 107, 105, 101], [[97, 61, 49], [98, 61, 50]])],
        some [104, 105]⟩ ∧
    (CacheMiddleware sha1.Sum 1000 cookieHandler 0 ctxA cookieStore).handlerCalls = 0 ∧
    mapGet (CacheMiddleware sha1.Sum 1000 cookieHandler 0 ctxA cookieStore).c.Writer.header
      [83, 101, 116, 45, 67, 111, 111, 107, 105, 101] = some [[98, 61, 50]] :=
  ⟨rfl, by decide, by decide⟩

/-- C8 as stated fails: a header value that is not valid UTF-8 (the byte 0xFF)
comes back as U+FFFD (the bytes EF BF BD). -/
theorem snapshot_roundtrip_counterexample :
    unmarshalResponse (marshalResponse latin1Snapshot) =
      .ok ⟨200, [([88], [[239, 191, 189]])], some [104, 105]⟩ ∧
    mapGet latin1Snapshot.Header [88] = some [[255]] ∧
    unmarshalResponse (marshalResponse latin1Snapshot) ≠ .ok latin1Snapshot := by
  have h : unmarshalResponse (marshalResponse latin1Snapshot) =
      .ok ⟨200, [([88], [[239, 191, 189]])], some [104, 105]⟩ := rfl
  refine ⟨h, rfl, ?_⟩
  rw [h]
  intro heq
  exact absurd (Except.ok.inj heq) (by decide)

/-- C8 as amended: for every snapshot (status an `int`, body bytes), decoding
the encoded snapshot succeeds and gives the same status and the same body, and
the header with every name and value coerced to valid UTF-8; when the names and
values are valid UTF-8 (no name twice in the map), the header has for every
name the same ordered values as before. -/
theorem snapshot_roundtrip_valid (s : cacheResponse) (hmin : -(2 ^ 63) ≤ s.Status)
    (hmax : s.Status < 2 ^ 63) (hdata : ∀ b, s.Data = some b → IsBytes b) :
    unmarshalResponse (marshalResponse s) = .ok ⟨s.Status, coerceHeader s.Header, s.Data⟩ ∧
    (NodupKeys s.Header → ValidHeader s.Header →
      (∀ k, mapGet (coerceHeader s.Header) k = mapGet s.Header k) ∧
      List.Perm (coerceHeader s.Header) s.Header) := by
  refine ⟨unmarshal_marshal s hmin hmax hdata, fun hnodup hvalid => ⟨?_, ?_⟩⟩
  · intro k
    rw [coerceHeader_valid s.Header hvalid hnodup]
    exact mapGet_sortEntries s.Header hnodup k
  · rw [coerceHeader_valid s.Header hvalid hnodup]
    exact sortEntries_perm s.Header

/-- C8 as amended, at a concrete input: a snapshot with a header of two values
and a header value in UTF-8. -/
theorem snapshot_roundtrip_valid_witness :
    unmarshalResponse (marshalResponse utf8Snapshot) =
      .ok ⟨200, coerceHeader utf8Snapshot.Header, some [104, 105]⟩ ∧
    (∀ k, mapGet (coerceHeader utf8Snapshot.Header) k = mapGet utf8Snapshot.Header k) ∧
    coerceHeader utf8Snapshot.Header = [([65], [[195, 169]]), ([88, 45, 66], [[49], [50]])] :=
  have h := snapshot_roundtrip_valid utf8Snapshot (by decide) (by decide) (by decide)
  ⟨h.1, (h.2 (by decide) (by decide)).1, by decide⟩

/-- Successive successful writes under status 200: the wrapper keeps its key
and time to live, entries under other keys stay, every call returns without
error, and the entry under the key is the snapshot of the last chunk. -/
theorem writeAll_spec (now : Int) : ∀ (chunks : List (Option Bytes)) (w : cachedWriter)
    (mc : memCache), w.ResponseWriter.status = 200 →
    (∀ f ∈ w.ResponseWriter.faults.take chunks.length, f = false) →
    (∀ r ∈ (writeAll now chunks w mc).1, succeeded r = true) ∧
    (∀ k, k ≠ w.key → (writeAll now chunks w mc).2.2.cache.items k = mc.cache.items k) ∧
    (∀ hne : chunks ≠ [], ∃ (c : Cache) (hdr : Header), c.defaultExpiration = mc.cache.defaultExpiration ∧
      (writeAll now chunks w mc).2.2 =
        ⟨c.Set now w.key (.bytes (marshalResponse ⟨200, hdr, chunks.getLast hne⟩)) w.expire⟩) := by
  intro chunks
  induction chunks with
  | nil =>
    intro w mc _ _
    exact ⟨by simp [writeAll], fun _ _ => rfl, fun hne => absurd rfl hne⟩
  | cons d ds ih =>
    intro w mc h200 hconn
    obtain ⟨hw, _, hok⟩ := Write_cases w mc now d
    have hf : w.ResponseWriter.faults.headD false = false := by
      cases hfs : w.ResponseWriter.faults with
      | nil => rfl
      | cons f fs =>
        have := hconn f (by rw [hfs]; simp)
        rw [this]; rfl
    obtain ⟨hres, hstore⟩ := hok ⟨hf, h200⟩
    have hw1 : (w.Write mc now d).2.1.ResponseWriter.status = 200 := by rw [hw]; exact h200
    have hconn1 : ∀ f ∈ (w.Write mc now d).2.1.ResponseWriter.faults.take ds.length, f = false := by
      intro f hfm
      rw [hw] at hfm
      simp only [responseWriter.Write, liveWrite] at hfm
      apply hconn f
      cases hfs : w.ResponseWriter.faults with
      | nil => rw [hfs] at hfm; simp at hfm
      | cons g gs =>
        rw [hfs] at hfm
        simp only [List.tail_cons] at hfm
        simp only [List.length_cons, List.take_succ_cons, List.mem_cons]
        exact Or.inr hfm
    have hkey : (w.Write mc now d).2.1.key = w.key := by rw [hw]
    have hexp : (w.Write mc now d).2.1.expire = w.expire := by rw [hw]
    obtain ⟨ih1, ih2, ih3⟩ := ih (w.Write mc now d).2.1 (w.Write mc now d).2.2 hw1 hconn1
    rw [hkey] at ih2
    rw [hkey, hexp] at ih3
    refine ⟨?_, ?_, ?_⟩
    · intro r hr
      simp only [writeAll, List.mem_cons] at hr
      rcases hr with rfl | hr
      · rw [hres]; rfl
      · exact ih1 r hr
    · intro k hk
      simp only [writeAll]
      rw [ih2 k hk, hstore]
      exact Set_items_other mc.cache now w.key k _ w.expire hk
    · intro hne
      cases ds with
      | nil =>
        refine ⟨mc.cache, w.ResponseWriter.header, rfl, ?_⟩
        simp only [writeAll, List.getLast_singleton]
        exact hstore
      | cons d2 ds2 =>
        obtain ⟨c, hdr, hc, hfinal⟩ := ih3 (by simp)
        refine ⟨c, hdr, ?_, ?_⟩
        · rw [hc, hstore]; rfl
        · simp only [writeAll] at hfinal ⊢
          rw [hfinal]
          simp only [List.getLast_cons_cons]

theorem concatChunks_append (l1 l2 : List (Option Bytes)) :
    concatChunks (l1 ++ l2) = concatChunks l1 ++ concatChunks l2 := by
  induction l1 with
  | nil => rfl
  | cons d ds ih => simp [concatChunks, ih]

theorem concatChunks_length_pos (l : List (Option Bytes)) (d : Option Bytes) (hd : d ∈ l)
    (hne : d.getD [] ≠ []) : 0 < (concatChunks l).length := by
  induction l with
  | nil => simp at hd
  | cons x xs ih =>
    rcases List.mem_cons.mp hd with h | h
    · subst h
      have := List.length_pos.mpr hne
      simp only [concatChunks, List.length_append]
      omega
    · have := ih h
      simp only [concatChunks, List.length_append]
      omega

/-- C10 (only the last chunk is kept): after the chunks `d1 ... dn` were written by
successive `Write` calls on one wrapper, each forwarded write succeeding under
status 200, the store holds under the key of the wrapper one entry, the
snapshot whose status is 200 and whose body is `dn`, which `getCache` returns;
entries under other keys are as before; and the body is not the concatenation
of the chunks as soon as an earlier chunk is not empty. -/
theorem last_chunk_cached (w : cachedWriter) (mc : memCache) (now : Int)
    (chunks : List (Option Bytes)) (hne : chunks ≠ [])
    (h200 : w.ResponseWriter.status = 200)
    (hconn : ∀ f ∈ w.ResponseWriter.faults.take chunks.length, f = false)
    (hbytes : ∀ d ∈ chunks, ∀ b, d = some b → IsBytes b) :
    (∀ r ∈ (writeAll now chunks w mc).1, succeeded r = true) ∧
    (∃ item payload hdr, (writeAll now chunks w mc).2.2.cache.items w.key = some item ∧
      item.Object = .bytes payload ∧
      unmarshalResponse payload = .ok ⟨200, hdr, chunks.getLast hne⟩ ∧
      getCache (writeAll now chunks w mc).2.2 now w.key = .ok ⟨200, hdr, chunks.getLast hne⟩) ∧
    (∀ k, k ≠ w.key → (writeAll now chunks w mc).2.2.cache.items k = mc.cache.items k) ∧
    ((∃ d ∈ chunks.dropLast, d.getD [] ≠ []) →
      (chunks.getLast hne).getD [] ≠ concatChunks chunks) := by
  obtain ⟨h1, h2, h3⟩ := writeAll_spec now chunks w mc h200 hconn
  obtain ⟨c, hdr, _, hfinal⟩ := h3 hne
  have hlast : ∀ b, chunks.getLast hne = some b → IsBytes b :=
    fun b hb => hbytes _ (List.getLast_mem hne) b hb
  refine ⟨h1, ?_, h2, ?_⟩
  · refine ⟨⟨.bytes (marshalResponse ⟨200, hdr, chunks.getLast hne⟩),
      if timeToLive c w.expire > 0 then now + timeToLive c w.expire else 0⟩,
      marshalResponse ⟨200, hdr, chunks.getLast hne⟩, coerceHeader hdr, ?_, rfl, ?_, ?_⟩
    · rw [hfinal]; exact Set_items_self c now w.key _ w.expire
    · exact unmarshal_marshal ⟨200, hdr, chunks.getLast hne⟩
        (show (-(2 ^ 63) : Int) ≤ 200 by norm_num) (show (200 : Int) < 2 ^ 63 by norm_num) hlast
    · rw [hfinal]
      exact getCache_after_Set c now now w.key hdr _ w.expire hlast (fun _ => by omega)
  · rintro ⟨d, hd, hdne⟩ heq
    have hsplit : chunks = chunks.dropLast ++ [chunks.getLast hne] :=
      (List.dropLast_append_getLast hne).symm
    have hlen : (concatChunks chunks).length =
        (concatChunks chunks.dropLast).length + ((chunks.getLast hne).getD []).length := by
      conv_lhs => rw [hsplit]
      rw [concatChunks_append]
      simp [concatChunks]
    have hpos := concatChunks_length_pos chunks.dropLast d hd hdne
    rw [← heq] at hlen
    omega

/-- C10 at a concrete input: the chunks `he` and `llo` written to a fresh
wrapper with key `k`; the snapshot under `k` has the body `llo`. -/
theorem last_chunk_cached_witness :
    ∃ item payload hdr, (writeAll 0 [some [104, 101], some [108, 108, 111]]
        (newCachedWriter 1000 (freshWriter []) [107]) memoryCacheInit).2.2.cache.items [107] =
        some item ∧
      item.Object = .bytes payload ∧
      unmarshalResponse payload = .ok ⟨200, hdr, some [108, 108, 111]⟩ ∧
      getCache (writeAll 0 [some [104, 101], some [108, 108, 111]]
        (newCachedWriter 1000 (freshWriter []) [107]) memoryCacheInit).2.2 0 [107] =
        .ok ⟨200, hdr, some [108, 108, 111]⟩ :=
  (last_chunk_cached (newCachedWriter 1000 (freshWriter []) [107]) memoryCacheInit 0
    [some [104, 101], some [108, 108, 111]] (by decide) rfl (by decide) (by decide)).2.1

end GinCache
